import Mathlib

/-!
Verification development for the FG-TextExtract pipeline.

The Python sources (src/main.py and src/src/extractors/...) are shallowly
embedded below.  Document texts are embedded as lists of characters
(`Text := List Char`), Python regular expressions are hand-compiled into
deterministic matchers over such lists (each matcher definition carries a
comment naming the pattern it embeds and, where the pattern could in
principle backtrack, why the greedy strategy used here is equivalent),
`re.finditer` is embedded as a left-to-right non-overlapping scan, and the
`float` arithmetic of the currency extractor is embedded with exact
rational numbers (for the amounts the extractor validates, which carry at
most two fractional digits and are bounded by 999999999.99, double
precision arithmetic is exact and order faithful, so the rational model
agrees with the Python semantics on every validated amount).
Character predicates follow the ASCII semantics of the Python code on the
ASCII texts the tool processes.
-/

set_option maxRecDepth 20000

/-- A Python string, embedded as its list of characters. -/
abbrev Text := List Char

/-- Embeds a Lean string literal as a `Text`. -/
def tx (s : String) : Text := s.data

/-- Python whitespace class for `\s`, `str.split()` and `str.strip()`
(ASCII subset). -/
def isWsCh (c : Char) : Bool :=
  c = ' ' || c = '\t' || c = '\n' || c = '\r' || c = '\x0b' || c = '\x0c'

/-- Python regex word character `\w` (ASCII subset): letters, digits, underscore. -/
def isWordCh (c : Char) : Bool :=
  c.isAlpha || c.isDigit || c = '_'

/-- Python `str.lower` (ASCII subset; the currency symbols of the source are
case free, so they are left unchanged, as in Python). -/
def lowerText (t : Text) : Text := t.map Char.toLower

/-- Does `pre` occur at the start of `t`?  Used to embed literal pieces of
the regular expressions. -/
def startsWithT : Text → Text → Bool
  | [], _ => true
  | _ :: _, [] => false
  | p :: ps, c :: cs => p = c && startsWithT ps cs

/-- Python `sub in s` substring test. -/
def containsSub (pat : Text) : Text → Bool
  | [] => startsWithT pat []
  | c :: cs => startsWithT pat (c :: cs) || containsSub pat cs

/-- Python `str.strip()`: remove leading and trailing whitespace. -/
def pyStrip (t : Text) : Text :=
  ((t.dropWhile isWsCh).reverse.dropWhile isWsCh).reverse

/-- Python `str.split(sep)` with a one character separator (used for
`text.split('\n')` and `amount_str.split('.')`). -/
def splitOnCh (sep : Char) : Text → List Text
  | [] => [[]]
  | c :: cs =>
    if c = sep then [] :: splitOnCh sep cs
    else
      match splitOnCh sep cs with
      | r :: rs => (c :: r) :: rs
      | [] => [[c]]

theorem lengthDropWhileLe (p : α → Bool) (l : List α) :
    (l.dropWhile p).length ≤ l.length := by
  induction l with
  | nil => simp [List.dropWhile]
  | cons x xs ih =>
    simp only [List.dropWhile]
    cases p x with
    | false => simp
    | true => simp; omega

/-- Python no-argument `str.split()`: whitespace separated tokens, no
empties; structurally recursive on a fuel that the text length bounds
(every recursive call drops at least one character). -/
def splitWsTokensF : Nat → Text → List Text
  | 0, _ => []
  | _, [] => []
  | f + 1, c :: cs =>
    if isWsCh c then splitWsTokensF f cs
    else (c :: cs.takeWhile (fun d => !isWsCh d)) :: splitWsTokensF f (cs.dropWhile (fun d => !isWsCh d))

def splitWsTokens (t : Text) : List Text := splitWsTokensF t.length t

/-- Python `sep.join(parts)`. -/
def joinWith (sep : Text) : List Text → Text
  | [] => []
  | [x] => x
  | x :: y :: rest => x ++ sep ++ joinWith sep (y :: rest)

/-- First `some` produced by `f` over a list, in order (embeds the
early-return loops of the Python code). -/
def pickFirst (f : α → Option β) : List α → Option β
  | [] => none
  | x :: xs =>
    match f x with
    | some b => some b
    | none => pickFirst f xs

theorem pickFirst_eq_some {f : α → Option β} {l : List α} {b : β}
    (h : pickFirst f l = some b) : ∃ x ∈ l, f x = some b := by
  induction l with
  | nil => simp [pickFirst] at h
  | cons x xs ih =>
    simp only [pickFirst] at h
    cases hx : f x with
    | some b' =>
      rw [hx] at h
      exact ⟨x, List.mem_cons_self x xs, by simpa [hx] using h⟩
    | none =>
      rw [hx] at h
      obtain ⟨y, hy, hfy⟩ := ih h
      exact ⟨y, List.mem_cons_of_mem x hy, hfy⟩

/-- Insert `x` into `acc` before the first element whose key is strictly
greater; with `stableSortByKey` below this embeds a stable ascending sort,
the semantics of Python `sorted` / `list.sort` (Timsort is stable). -/
def insKey (k : α → K) [LinearOrder K] (x : α) : List α → List α
  | [] => [x]
  | y :: ys => if k x < k y then x :: y :: ys else y :: insKey k x ys

/-- Stable ascending sort by key: elements are inserted in list order and an
element is placed after every earlier element of equal key, so equal-key
elements keep their original relative order, as Python `sorted` guarantees.
A Python `sort(key, reverse=True)` is embedded as the same sort with the
negated key, which has identical semantics (stable, descending). -/
def stableSortByKey (k : α → K) [LinearOrder K] (l : List α) : List α :=
  l.foldl (fun acc x => insKey k x acc) []

theorem mem_insKey (k : α → K) [LinearOrder K] (x a : α) (l : List α) :
    a ∈ insKey k x l ↔ a = x ∨ a ∈ l := by
  induction l with
  | nil => simp [insKey]
  | cons y ys ih =>
    simp only [insKey]
    by_cases h : k x < k y
    · simp [h]
    · simp [h, ih]; tauto

theorem mem_foldl_insKey (k : α → K) [LinearOrder K] (a : α) :
    ∀ (l acc : List α), a ∈ l.foldl (fun acc x => insKey k x acc) acc ↔ a ∈ acc ∨ a ∈ l := by
  intro l
  induction l with
  | nil => simp
  | cons x xs ih =>
    intro acc
    simp only [List.foldl_cons]
    rw [ih (insKey k x acc), mem_insKey]
    simp; tauto

theorem mem_stableSortByKey (k : α → K) [LinearOrder K] (a : α) (l : List α) :
    a ∈ stableSortByKey k l ↔ a ∈ l := by
  unfold stableSortByKey
  rw [mem_foldl_insKey]
  simp

theorem headD_insKey (k : α → K) [LinearOrder K] (x d : α) (l : List α) :
    (insKey k x l).headD d =
      match l with
      | [] => x
      | y :: _ => if k x < k y then x else y := by
  cases l with
  | nil => simp [insKey]
  | cons y ys =>
    simp only [insKey]
    by_cases h : k x < k y <;> simp [h]

theorem insKey_ne_nil (k : α → K) [LinearOrder K] (x : α) (l : List α) :
    insKey k x l ≠ [] := by
  cases l with
  | nil => simp [insKey]
  | cons y ys =>
    simp only [insKey]
    by_cases h : k x < k y <;> simp [h]

theorem foldl_insKey_head (k : α → K) [LinearOrder K] (d : α) :
    ∀ (l p acc : List α),
      (acc = [] → p = []) →
      (acc ≠ [] →
        (∃ l₁ l₂, p = l₁ ++ acc.headD d :: l₂ ∧ ∀ y ∈ l₁, k (acc.headD d) < k y) ∧
        (∀ y ∈ p, k (acc.headD d) ≤ k y)) →
      ((l.foldl (fun acc x => insKey k x acc) []).headD d = d → True) →
      (l.foldl (fun acc x => insKey k x acc) acc = [] → p ++ l = []) ∧
      ((l.foldl (fun acc x => insKey k x acc) acc) ≠ [] →
        (∃ l₁ l₂, p ++ l = l₁ ++ (l.foldl (fun acc x => insKey k x acc) acc).headD d :: l₂ ∧
          ∀ y ∈ l₁, k ((l.foldl (fun acc x => insKey k x acc) acc).headD d) < k y) ∧
        (∀ y ∈ p ++ l, k ((l.foldl (fun acc x => insKey k x acc) acc).headD d) ≤ k y)) := by
  intro l
  induction l with
  | nil =>
    intro p acc h1 h2 _
    simp only [List.foldl_nil, List.append_nil]
    exact ⟨h1, h2⟩
  | cons x xs ih =>
    intro p acc h1 h2 _
    simp only [List.foldl_cons]
    have hmain := ih (p ++ [x]) (insKey k x acc) ?hne ?hinv (fun _ => trivial)
    case hne => intro hc; exact absurd hc (insKey_ne_nil k x acc)
    case hinv =>
      intro _
      have hh := headD_insKey k x d acc
      cases acc with
      | nil =>
        have hp : p = [] := h1 rfl
        subst hp
        simp only at hh
        rw [hh]
        constructor
        · exact ⟨[], [], by simp, by simp⟩
        · intro y hy
          simp at hy
          simp [hy]
      | cons a rest =>
        obtain ⟨⟨l₁, l₂, hp, hstrict⟩, hall⟩ := h2 (by simp)
        simp only [List.headD_cons] at hp hstrict hall
        simp only at hh
        by_cases hx : k x < k a
        · rw [hh, if_pos hx]
          constructor
          · refine ⟨p, [], by simp, ?_⟩
            intro y hy
            exact lt_of_lt_of_le hx (hall y hy)
          · intro y hy
            rcases List.mem_append.mp hy with hy | hy
            · exact le_of_lt (lt_of_lt_of_le hx (hall y hy))
            · simp at hy; simp [hy]
        · rw [hh, if_neg hx]
          constructor
          · refine ⟨l₁, l₂ ++ [x], ?_, hstrict⟩
            rw [hp]; simp
          · intro y hy
            rcases List.mem_append.mp hy with hy | hy
            · exact hall y hy
            · simp at hy; subst hy; exact le_of_not_lt hx
    constructor
    · intro hc
      have := hmain.1 hc
      simp at this
    · intro hne
      obtain ⟨⟨l₁, l₂, heq, hstrict⟩, hall⟩ := hmain.2 hne
      refine ⟨⟨l₁, l₂, ?_, hstrict⟩, ?_⟩
      · rw [← heq]; simp
      · intro y hy
        apply hall
        simp at hy ⊢
        tauto

/-- The head of the stable sort is the first encountered minimum-key element
of the input: it occurs in the input preceded only by strictly greater keys,
and no key in the input is smaller.  Applied with a negated key this reads:
first encountered maximum. -/
theorem stableSortByKey_head_first (k : α → K) [LinearOrder K] (d : α)
    (l : List α) (hl : l ≠ []) :
    ∃ l₁ l₂, l = l₁ ++ (stableSortByKey k l).headD d :: l₂ ∧
      (∀ y ∈ l₁, k ((stableSortByKey k l).headD d) < k y) ∧
      (∀ y ∈ l, k ((stableSortByKey k l).headD d) ≤ k y) := by
  have h := foldl_insKey_head k d l [] [] (fun _ => rfl) (fun hc => absurd rfl hc)
    (fun _ => trivial)
  have hne : stableSortByKey k l ≠ [] := by
    intro hc
    exact hl (by simpa using h.1 hc)
  obtain ⟨⟨l₁, l₂, heq, hstrict⟩, hall⟩ := h.2 hne
  exact ⟨l₁, l₂, by simpa using heq, hstrict, fun y hy => hall y (by simpa using hy)⟩

theorem insKey_append_of_le (k : α → K) [LinearOrder K] (x : α) :
    ∀ (l : List α), (∀ y ∈ l, ¬ k x < k y) → insKey k x l = l ++ [x] := by
  intro l
  induction l with
  | nil => simp [insKey]
  | cons y ys ih =>
    intro h
    simp only [insKey]
    rw [if_neg (h y (by simp))]
    simp [ih (fun z hz => h z (by simp [hz]))]

/-- Stable sort of an already sorted list is the identity (Python `sorted`
on a list that is already in key order returns it unchanged). -/
theorem stableSortByKey_of_pairwise (k : α → K) [LinearOrder K] :
    ∀ (l acc : List α), (acc ++ l).Pairwise (fun a b => k a ≤ k b) →
      l.foldl (fun acc x => insKey k x acc) acc = acc ++ l := by
  intro l
  induction l with
  | nil => intro acc _; simp
  | cons x xs ih =>
    intro acc hp
    simp only [List.foldl_cons]
    have hins : insKey k x acc = acc ++ [x] := by
      apply insKey_append_of_le
      intro y hy
      have : k y ≤ k x := by
        have := (List.pairwise_append.mp hp).2.2
        exact this y hy x (by simp)
      exact not_lt_of_le this
    rw [hins, ih (acc ++ [x]) (by simpa using hp)]
    simp

theorem stableSortByKey_sorted_id (k : α → K) [LinearOrder K] (l : List α)
    (h : l.Pairwise (fun a b => k a ≤ k b)) : stableSortByKey k l = l := by
  unfold stableSortByKey
  simpa using stableSortByKey_of_pairwise k l [] (by simpa using h)

theorem pairwise_insKey (k : α → K) [LinearOrder K] (x : α) :
    ∀ (l : List α), l.Pairwise (fun a b => k a ≤ k b) →
      (insKey k x l).Pairwise (fun a b => k a ≤ k b) := by
  intro l
  induction l with
  | nil => simp [insKey]
  | cons y ys ih =>
    intro hp
    rw [List.pairwise_cons] at hp
    simp only [insKey]
    by_cases h : k x < k y
    · rw [if_pos h]
      refine List.Pairwise.cons ?_ (List.Pairwise.cons hp.1 hp.2)
      intro z hz
      rcases List.mem_cons.mp hz with hz | hz
      · subst hz; exact le_of_lt h
      · exact le_trans (le_of_lt h) (hp.1 z hz)
    · rw [if_neg h]
      refine List.Pairwise.cons ?_ (ih hp.2)
      intro z hz
      rcases (mem_insKey k x z ys).mp hz with hz | hz
      · subst hz; exact le_of_not_lt h
      · exact hp.1 z hz

/-- The output of the stable sort is sorted by key. -/
theorem pairwise_stableSortByKey (k : α → K) [LinearOrder K] (l : List α) :
    (stableSortByKey k l).Pairwise (fun a b => k a ≤ k b) := by
  unfold stableSortByKey
  suffices h : ∀ (l acc : List α), acc.Pairwise (fun a b => k a ≤ k b) →
      (l.foldl (fun acc x => insKey k x acc) acc).Pairwise (fun a b => k a ≤ k b) by
    exact h l [] (by simp)
  intro l
  induction l with
  | nil => intro acc h; simpa using h
  | cons x xs ih =>
    intro acc h
    simp only [List.foldl_cons]
    exact ih (insKey k x acc) (pairwise_insKey k x acc h)

/-- Embeds `re.finditer`: scan left to right, at each position try the
matcher; on a match emit its capture and continue after the match
(non-overlapping), otherwise advance one character.  All matchers used
below consume at least one character, so `fuel = text.length` performs the
full scan. -/
def scanAll (m : Text → Option (Text × Text)) : Nat → Text → List Text
  | 0, _ => []
  | _, [] => []
  | f + 1, c :: cs =>
    match m (c :: cs) with
    | some (cap, rest) => cap :: scanAll m f rest
    | none => scanAll m f cs

theorem scanAll_mem {m : Text → Option (Text × Text)} :
    ∀ (fuel : Nat) (t cap : Text), cap ∈ scanAll m fuel t →
      ∃ u rest, m u = some (cap, rest) := by
  intro fuel
  induction fuel with
  | zero => intro t cap h; simp [scanAll] at h
  | succ f ih =>
    intro t cap h
    cases t with
    | nil => simp [scanAll] at h
    | cons c cs =>
      simp only [scanAll] at h
      cases hm : m (c :: cs) with
      | some pr =>
        rw [hm] at h
        rcases List.mem_cons.mp h with h | h
        · exact ⟨c :: cs, pr.2, by rw [hm, h]⟩
        · exact ih pr.2 cap h
      | none =>
        rw [hm] at h
        exact ih cs cap h

/-- Decimal value of a run of digit characters. -/
def natOfDigits (s : Text) : Nat :=
  s.foldl (fun a c => a * 10 + (c.toNat - 48)) 0

/-- An exact non-negative decimal value `num / 10 ^ pow`, the embedding of
the Python floats of the currency extractor.  For every amount the
extractor validates (at most two fractional digits, at most 999999999.99)
the binary double of CPython represents the decimal with slack far below
the 0.01 grid, so this exact model is value and order faithful there. -/
structure DecVal where
  num : Nat
  pow : Nat
deriving DecidableEq, Repr

/-- The rational value of a `DecVal` (statement level only). -/
def valToRat (v : DecVal) : Rat := (v.num : Rat) / (10 : Rat) ^ v.pow

/-- Embeds Python `float()` on the digit/period strings the currency
extractor feeds it: at most one period, every other character a digit, at
least one digit; other shapes raise `ValueError`, embedded as `none`. -/
def parseFloatT (s : Text) : Option DecVal :=
  let intPart := s.takeWhile Char.isDigit
  match s.drop intPart.length with
  | [] => if intPart = [] then none else some ⟨natOfDigits intPart, 0⟩
  | '.' :: frac =>
    if frac.all Char.isDigit && !(intPart = [] && frac = []) then
      some ⟨natOfDigits (intPart ++ frac), frac.length⟩
    else none
  | _ => none

/-- The currency symbol set of `CurrencyExtractor.__init__`
(src/src/extractors/currency_extractor.py line 12). -/
def currencySymbols : List Char :=
  ['$', '€', '£', '¥', '₹', '¢', '₦', '₡', '₪', '₱', '₨', '₩', '₴', '₽']

def isCurrencySymbolCh (c : Char) : Bool := currencySymbols.contains c

/-- `CurrencyExtractor._amount_to_float` (lines 172-182): strip currency
symbols and commas, then `float()`; the guard `if not amount_str` returns
`0.0` on the empty string.  `none` embeds a raised `ValueError`. -/
def amountToVal (s : Text) : Option DecVal :=
  if s = [] then some ⟨0, 0⟩
  else
    parseFloatT ((s.filter (fun c => !isCurrencySymbolCh c)).filter (fun c => c != ','))

/-- Decimal digits of a natural number, most significant first
(structurally recursive on a fuel that the number bounds). -/
def natDigitsAux : Nat → Nat → Text
  | 0, _ => []
  | f + 1, n => if n < 10 then [Nat.digitChar n] else natDigitsAux f (n / 10) ++ [Nat.digitChar (n % 10)]

def natDigitsT (n : Nat) : Text := natDigitsAux (n + 1) n

/-- Insert a comma after every group of 3 digits, operating on the reversed
digit list (helper for the thousands grouping of Python `f-strings`). -/
def groupDigitsAux : Text → Nat → Text
  | [], _ => []
  | c :: cs, cnt =>
    if cnt = 3 then ',' :: c :: groupDigitsAux cs 1 else c :: groupDigitsAux cs (cnt + 1)

/-- Thousands grouping of a digit run, as produced by the Python format
specifier with a comma. -/
def groupDigits (ds : Text) : Text := (groupDigitsAux ds.reverse 0).reverse

/-- Two-digit zero padded rendering of `n < 100`. -/
def pad2 (n : Nat) : Text :=
  if n < 10 then ['0', Nat.digitChar n] else [Nat.digitChar (n / 10), Nat.digitChar (n % 10)]

/-- The whole cents of a value, rounding ties to even: the two decimal
place rounding performed by the Python format specifier on `v`.  For every
validated amount `v * 100` is an integer and no rounding occurs; for
unvalidated amounts with more than two fractional digits CPython rounds
the binary double, which on rare inputs can differ from exact decimal
rounding — no theorem below depends on that case. -/
def centsOfVal (v : DecVal) : Nat :=
  let den := 10 ^ v.pow
  let scaled := 100 * v.num
  let q := scaled / den
  let r := scaled % den
  if 2 * r < den then q
  else if den < 2 * r then q + 1
  else if q % 2 = 0 then q else q + 1

/-- `CurrencyExtractor._format_amount` (lines 164-170): render the parsed
value as a dollar sign, thousands-grouped integer part and exactly two
fractional digits; on a parse failure fall back to the dollar sign plus the
raw string. -/
def formatAmount (s : Text) : Text :=
  match amountToVal s with
  | some v =>
    let cents := centsOfVal v
    '$' :: (groupDigits (natDigitsT (cents / 100)) ++ '.' :: pad2 (cents % 100))
  | none => '$' :: s

/-- `CurrencyExtractor._clean_amount` (lines 122-137): drop currency
symbols, strip whitespace, keep only digits, commas and periods; `None` on
an empty result. -/
def cleanAmount (s : Text) : Option Text :=
  if s = [] then none
  else
    let c1 := s.filter (fun c => !isCurrencySymbolCh c)
    let c2 := pyStrip c1
    let c3 := c2.filter (fun c => c.isDigit || c = ',' || c = '.')
    if c3 = [] then none else some c3

/-- `CurrencyExtractor._is_valid_amount` (lines 139-162): at least one
digit, at most one period, at most two characters after the period, and a
parsed value between 0.01 and 999999999.99 inclusive. -/
def isValidAmount (s : Text) : Bool :=
  if s = [] then false
  else if !(s.any Char.isDigit) then false
  else if s.contains '.' &&
      (decide ((splitOnCh '.' s).length > 2) ||
        (decide ((splitOnCh '.' s).length = 2) &&
          decide (((splitOnCh '.' s).getD 1 []).length > 2))) then false
  else
    match amountToVal s with
    | some v =>
      -- 0.01 <= num / 10 ^ pow <= 999999999.99, cross multiplied
      decide (10 ^ v.pow ≤ 100 * v.num ∧ 100 * v.num ≤ 99999999999 * 10 ^ v.pow)
    | none => false

/-- Character class `[0-9,]` of the amount capture groups. -/
def isAmtCh (c : Char) : Bool := c.isDigit || c = ','

def skipWs (t : Text) : Text := t.dropWhile isWsCh

/-- The capture group `([0-9,]+\.?[0-9]*)` shared by every currency pattern:
a non-empty greedy run of digits and commas, an optional period, a greedy
run of digits.  Greedy matching with no backtracking is faithful here: in
every pattern below the group is followed by end-of-pattern, whitespace, a
currency symbol or a letter, and giving back group characters would expose
a digit, comma or period, which none of those continuations accept. -/
def matchAmountCore (t : Text) : Option (Text × Text) :=
  let d1 := t.takeWhile isAmtCh
  if d1 = [] then none
  else
    match t.drop d1.length with
    | '.' :: r2 =>
      let d2 := r2.takeWhile Char.isDigit
      some (d1 ++ '.' :: d2, r2.drop d2.length)
    | r1 => some (d1, r1)

/-- First literal of `alts` that starts `t`, with the rest of `t`;
embeds an `(?:a|b|...)` alternation of literals (the alternative lists used
below are mutually prefix free unless noted, so picking the first match is
the Python backtracking order). -/
def matchAltLit (alts : List Text) (t : Text) : Option (Text × Text) :=
  pickFirst (fun a => if startsWithT a t then some (a, t.drop a.length) else none) alts

/-- Pattern 1, `[$€£¥₹¢₦₡₪₱₨₩₴₽]\s*([0-9,]+\.?[0-9]*)`. -/
def curP1 (t : Text) : Option (Text × Text) :=
  match t with
  | c :: cs => if isCurrencySymbolCh c then matchAmountCore (skipWs cs) else none
  | [] => none

/-- Pattern 2, `([0-9,]+\.?[0-9]*)\s*[$€£¥₹¢₦₡₪₱₨₩₴₽]`. -/
def curP2 (t : Text) : Option (Text × Text) :=
  match matchAmountCore t with
  | some (cap, rest) =>
    match skipWs rest with
    | c :: cs => if isCurrencySymbolCh c then some (cap, cs) else none
    | [] => none
  | none => none

/-- The ISO code alternation `(?:USD|EUR|GBP|JPY|INR|CAD|AUD)`, lowered as
the patterns run over the lowered text with IGNORECASE. -/
def isoCodes : List Text :=
  [tx "usd", tx "eur", tx "gbp", tx "jpy", tx "inr", tx "cad", tx "aud"]

/-- Pattern 3, `([0-9,]+\.?[0-9]*)\s*(?:USD|EUR|GBP|JPY|INR|CAD|AUD)\b`. -/
def curP3 (t : Text) : Option (Text × Text) :=
  match matchAmountCore t with
  | some (cap, rest) =>
    match matchAltLit isoCodes (skipWs rest) with
    | some (_, r2) =>
      match r2 with
      | [] => some (cap, r2)
      | d :: _ => if isWordCh d then none else some (cap, r2)
    | none => none
  | none => none

/-- Pattern 4, `(?:USD|EUR|GBP|JPY|INR|CAD|AUD)\s*([0-9,]+\.?[0-9]*)`
(note: no word boundary in the source pattern). -/
def curP4 (t : Text) : Option (Text × Text) :=
  match matchAltLit isoCodes t with
  | some (_, r1) => matchAmountCore (skipWs r1)
  | none => none

/-- The keyword alternation of pattern 5 (mutually prefix free). -/
def amtKeywords : List Text :=
  [tx "total", tx "amount", tx "sum", tx "due", tx "balance", tx "pay", tx "price", tx "cost"]

/-- The separator run `[:\s]*` followed by `\$?` followed by `\s*`. -/
def skipKwSep (t : Text) : Text :=
  let r1 := t.dropWhile (fun c => c = ':' || isWsCh c)
  let r2 := match r1 with
    | '$' :: cs => cs
    | _ => r1
  skipWs r2

/-- Pattern 5,
`(?:total|amount|sum|due|balance|pay|price|cost)[:\s]*\$?\s*([0-9,]+\.?[0-9]*)`.
There is no word boundary before the keywords, so they also match inside
words such as `subtotal`. -/
def curP5 (t : Text) : Option (Text × Text) :=
  match matchAltLit amtKeywords t with
  | some (_, r1) => matchAmountCore (skipKwSep r1)
  | none => none

/-- Pattern 6, `([0-9,]+\.?[0-9]*)\s*(?:total|due|balance)`. -/
def curP6 (t : Text) : Option (Text × Text) :=
  match matchAmountCore t with
  | some (cap, rest) =>
    match matchAltLit [tx "total", tx "due", tx "balance"] (skipWs rest) with
    | some (_, r2) => some (cap, r2)
    | none => none
  | none => none

/-- The six `finditer` passes of `CurrencyExtractor._find_all_amounts`
(lines 58-69), in source order, over the lowered text. -/
def currencyCaptures (lower : Text) : List Text :=
  scanAll curP1 lower.length lower ++ scanAll curP2 lower.length lower ++
  scanAll curP3 lower.length lower ++ scanAll curP4 lower.length lower ++
  scanAll curP5 lower.length lower ++ scanAll curP6 lower.length lower

/-- The sort key of `_find_all_amounts` line 72: the numeric value in
whole cents.  Every list member is a canonical `$x,xxx.yy` string, whose
parse has exactly two fractional digits, so this equals 100 times the
float key Python sorts by and induces the same ordering. -/
def amountValKey (x : Text) : Nat :=
  match amountToVal x with
  | some v => 100 * v.num / 10 ^ v.pow
  | none => 0

/-- `CurrencyExtractor._find_all_amounts` (lines 53-74): clean, validate and
canonically format every capture, deduplicate by the formatted string, then
sort descending by numeric value. -/
def findAllAmounts (text : Text) : List Text :=
  let amounts := (currencyCaptures (lowerText text)).foldl
    (fun acc cap =>
      match cleanAmount cap with
      | some cl =>
        if isValidAmount cl then
          let f := formatAmount cl
          if acc.contains f then acc else acc ++ [f]
        else acc
      | none => acc) []
  -- descending (`reverse=True`), embedded as the stable ascending sort on
  -- the negated key
  stableSortByKey (fun x => -(amountValKey x : Int)) amounts

/-- `total_keywords` of `CurrencyExtractor.__init__` (lines 32-36), in
priority order. -/
def totalKeywords : List Text :=
  [tx "total", tx "grand total", tx "amount due", tx "balance due", tx "final amount",
   tx "total amount", tx "amount owed", tx "total due", tx "pay", tx "payment",
   tx "sum", tx "balance", tx "invoice total", tx "bill total"]

/-- The per-keyword pattern `{keyword}[:\s]*\$?\s*([0-9,]+\.?[0-9]*)` of
`_find_total_amount` method 1 (line 86); the keyword is `re.escape`d, hence
a literal, and has no word boundary, so it also matches inside words. -/
def kwAfterTry (kw : Text) (t : Text) : Option (Text × Text) :=
  if startsWithT kw t then matchAmountCore (skipKwSep (t.drop kw.length)) else none

/-- The per-keyword pattern `([0-9,]+\.?[0-9]*)\s*{keyword}` of
`_find_total_amount` method 1 (line 98). -/
def kwBeforeTry (kw : Text) (t : Text) : Option (Text × Text) :=
  match matchAmountCore t with
  | some (cap, rest) =>
    let r1 := skipWs rest
    if startsWithT kw r1 then some (cap, r1.drop kw.length) else none
  | none => none

/-- The inner loops of `_find_total_amount` method 1 (lines 89-95 and
101-107): over the captures of one pattern, return the first whose cleaned,
formatted form is a member of the deduplicated amount list. -/
def firstFormattedIn (amts : List Text) (caps : List Text) : Option Text :=
  pickFirst (fun cap =>
    match cleanAmount cap with
    | some cl =>
      let f := formatAmount cl
      if amts.contains f then some f else none
    | none => none) caps

/-- Method 1 of `_find_total_amount` (lines 84-107): keywords in priority
order, for each first the keyword-then-amount pattern, then the
amount-then-keyword pattern. -/
def totalKeywordScan (kws : List Text) (lower : Text) (amts : List Text) : Option Text :=
  pickFirst (fun kw =>
    match firstFormattedIn amts (scanAll (kwAfterTry kw) lower.length lower) with
    | some f => some f
    | none => firstFormattedIn amts (scanAll (kwBeforeTry kw) lower.length lower)) kws

/-- `CurrencyExtractor._find_total_amount` (lines 76-120), parameterized by
the keyword list held by the extractor object.  Method 2 (lines 109-117)
searches the lowered text for the escaped largest amount (symbols and
commas removed — a plain literal) and returns the largest amount if found;
method 3 (line 120) returns the largest amount anyway. -/
def findTotalAmountWith (kws : List Text) (text : Text) (allAmounts : List Text) : Text :=
  match allAmounts with
  | [] => []
  | a0 :: _ =>
    let lower := lowerText text
    match totalKeywordScan kws lower allAmounts with
    | some f => f
    | none =>
      if containsSub (a0.filter (fun c => c != '$' && c != ',')) lower then a0
      else a0

def findTotalAmount (text : Text) (allAmounts : List Text) : Text :=
  findTotalAmountWith totalKeywords text allAmounts

/-- `CurrencyExtractor.extract_amounts` (lines 38-51): the pair
`(total, other_amounts)`, the latter comma joined. -/
def extractAmountsWith (kws : List Text) (text : Text) : Text × Text :=
  let allAmounts := findAllAmounts text
  let total := findTotalAmountWith kws text allAmounts
  let others := allAmounts.filter (fun amt => amt != total)
  (total, if others = [] then [] else joinWith (tx ", ") others)

def extractAmounts (text : Text) : Text × Text :=
  extractAmountsWith totalKeywords text

def upperText (t : Text) : Text := t.map Char.toUpper

/-- A Python `\b` boundary holds before a character iff its word-ness
differs from that of the previous character (start of string counts as
non-word). -/
def atBoundary (prev : Option Char) (c : Char) : Bool :=
  (match prev with
   | none => false
   | some p => isWordCh p) != isWordCh c

/-- Scanner variant that threads the character preceding the current
position, needed by matchers whose pattern begins with `\b`.  After a match
the scan continues behind it with the last matched character as the new
previous character (`re.finditer` matches never overlap). -/
def scanPrev (m : Option Char → Text → Option (Text × Text)) :
    Nat → Option Char → Text → List Text
  | 0, _, _ => []
  | _, _, [] => []
  | f + 1, prev, c :: cs =>
    match m prev (c :: cs) with
    | some (cap, rest) => cap :: scanPrev m f cap.getLast? rest
    | none => scanPrev m f (some c) cs

/-- Character class `[A-Z0-9\-]` of the invoice capture groups, with
IGNORECASE. -/
def invGroupCh (c : Char) : Bool := c.isAlpha || c.isDigit || c = '-'

/-- The capture group `([A-Z0-9\-]{3,20})`: greedy run, at least 3 and at
most 20 characters; nothing follows it in any pattern in which it occurs,
so the greedy take is the Python match. -/
def matchInvGroup (t : Text) : Option (Text × Text) :=
  let run := t.takeWhile invGroupCh
  if run.length < 3 then none
  else
    let cap := run.take 20
    some (cap, t.drop cap.length)

/-- The separator run `\s*#?\s*:?\s*` of the invoice patterns.  The
whitespace, `#`, `:` and group character classes are pairwise disjoint, so
the greedy pass is the unique viable parse. -/
def skipInvSep (t : Text) : Text :=
  let r1 := skipWs t
  let r2 := match r1 with
    | '#' :: cs => cs
    | _ => r1
  let r3 := skipWs r2
  let r4 := match r3 with
    | ':' :: cs => cs
    | _ => r3
  skipWs r4

/-- Pattern shape `{kw}\s*#?\s*:?\s*([A-Z0-9\-]{3,20})` (invoice patterns
1, 2, 9 and the three line-scoped patterns of `_extract_from_line`). -/
def kwAnchoredTry (kw : Text) (t : Text) : Option (Text × Text) :=
  if startsWithT kw t then matchInvGroup (skipInvSep (t.drop kw.length)) else none

/-- Pattern shape `{kw}\s*(?:number|no|num)\s*#?\s*:?\s*([A-Z0-9\-]{3,20})`
(invoice patterns 3, 4 and 10).  The alternatives are tried in source order
with the full continuation, as the Python engine backtracks: `num` is a
prefix of `number`, so on a failing continuation after `number` the engine
retries with `num` from inside the same word. -/
def kwNumTry (kw : Text) (t : Text) : Option (Text × Text) :=
  if startsWithT kw t then
    let r1 := skipWs (t.drop kw.length)
    pickFirst (fun alt =>
      if startsWithT alt r1 then matchInvGroup (skipInvSep (r1.drop alt.length)) else none)
      [tx "number", tx "no", tx "num"]
  else none

/-- Pattern shape `{kw}\s*[:#]\s*([A-Z0-9\-]{3,20})` (invoice patterns
5 and 6). -/
def kwColonHashTry (kw : Text) (t : Text) : Option (Text × Text) :=
  if startsWithT kw t then
    match skipWs (t.drop kw.length) with
    | c :: cs => if c = ':' || c = '#' then matchInvGroup (skipWs cs) else none
    | [] => none
  else none

/-- The group `([A-Z]{1,3}[0-9]{3,10})` of invoice pattern 7: letters taken
greedily from 3 down to 1 (the Python backtracking order), each followed by
a greedy run of 3 to 10 digits. -/
def grpLettersDigitsAux (t : Text) : Nat → Option (Text × Text)
  | 0 => none
  | na + 1 =>
    let ds := (t.drop (na + 1)).takeWhile Char.isDigit
    if ds.length ≥ 3 then
      let cap := t.take (na + 1) ++ ds.take 10
      some (cap, t.drop (na + 1 + (ds.take 10).length))
    else grpLettersDigitsAux t na

def grpLettersDigits (t : Text) : Option (Text × Text) :=
  let la := t.takeWhile Char.isAlpha
  if la = [] then none else grpLettersDigitsAux t (min la.length 3)

/-- The group `([0-9]{3,10}[A-Z]{0,3})` of invoice pattern 8: a greedy run
of 3 to 10 digits then up to 3 letters; nothing in the group can fail after
the digits, so the greedy take is the Python match. -/
def grpDigitsLetters (t : Text) : Option (Text × Text) :=
  let ds := t.takeWhile Char.isDigit
  if ds.length < 3 then none
  else
    let dig := ds.take 10
    let rest := t.drop dig.length
    let ls := (rest.takeWhile Char.isAlpha).take 3
    some (dig ++ ls, rest.drop ls.length)

/-- The lazy gap `.*?` before a group: try the group at each position,
consuming one non-newline character on failure (`.` does not match a
newline). -/
def lazyGroupScan (grp : Text → Option (Text × Text)) : Nat → Text → Option (Text × Text)
  | 0, _ => none
  | _, [] => none
  | f + 1, c :: cs =>
    match grp (c :: cs) with
    | some r => some r
    | none => if c = '\n' then none else lazyGroupScan grp f cs

/-- Pattern shape `(?:invoice|inv).*?{group}` (invoice patterns 7 and 8):
the alternative `invoice` is explored in full first; only if no group
occurs on the rest of the line does the engine retry with the prefix
`inv`, whose lazy gap then starts four characters earlier. -/
def kwLazyTry (grp : Text → Option (Text × Text)) (t : Text) : Option (Text × Text) :=
  (if startsWithT (tx "invoice") t then
    lazyGroupScan grp (t.drop 7).length (t.drop 7)
   else none) <|>
  (if startsWithT (tx "inv") t then
    lazyGroupScan grp (t.drop 3).length (t.drop 3)
   else none)

/-- `invoice_patterns` of `InvoiceExtractor.__init__` (lines 12-30), in
source order, as matchers. -/
def invoiceFullPats : List (Text → Option (Text × Text)) :=
  [kwAnchoredTry (tx "invoice"), kwAnchoredTry (tx "inv"),
   kwNumTry (tx "invoice"), kwNumTry (tx "inv"),
   kwColonHashTry (tx "invoice"), kwColonHashTry (tx "inv"),
   kwLazyTry grpLettersDigits, kwLazyTry grpDigitsLetters,
   kwAnchoredTry (tx "bill"), kwNumTry (tx "bill")]

/-- The stopword list of `InvoiceExtractor._is_valid_invoice_number`
(lines 100-103). -/
def invoiceStopwords : List Text :=
  [tx "invoice", tx "number", tx "total", tx "amount", tx "date", tx "due",
   tx "paid", tx "balance", tx "tax", tx "shipping", tx "subtotal"]

/-- Character class `[A-Z0-9\-_]` (IGNORECASE). -/
def invValidClassCh (c : Char) : Bool := c.isAlpha || c.isDigit || c = '-' || c = '_'

/-- `re.match(r'^[A-Z0-9\-_]{3,20}$', candidate, re.IGNORECASE)` as a full
match: 3 to 20 class characters spanning the whole candidate.  A Python
`$` also matches just before a newline that ends the string, so one
trailing newline is tolerated. -/
def matchInvFullClass (t : Text) : Bool :=
  match t.getLast? with
  | some '\n' =>
    decide (3 ≤ t.dropLast.length) && decide (t.dropLast.length ≤ 20) &&
      t.dropLast.all invValidClassCh
  | _ => decide (3 ≤ t.length) && decide (t.length ≤ 20) && t.all invValidClassCh

/-- `InvoiceExtractor._is_valid_invoice_number` (lines 83-119).  Note the
length test runs on the raw candidate, before the separators are stripped;
only the digit test uses the stripped form. -/
def isValidInvoiceNumber (cand : Text) : Bool :=
  if cand = [] || cand.length < 3 then false
  else
    let cleaned := cand.filter (fun c => !(c = '-' || c = '_' || c = ' '))
    if !(cleaned.any Char.isDigit) then false
    else if !(matchInvFullClass cand) then false
    else if invoiceStopwords.contains (lowerText cand) then false
    else if cand.any Char.isAlpha && cand.any Char.isDigit then true
    else if cand.all Char.isDigit && decide (4 ≤ cand.length) then true
    else false

/-- First match of a matcher in a text, scanning left to right
(`re.search`). -/
def searchFirst (m : Text → Option (Text × Text)) : Nat → Text → Option Text
  | 0, _ => none
  | _, [] => none
  | f + 1, c :: cs =>
    match m (c :: cs) with
    | some (cap, _) => some cap
    | none => searchFirst m f cs

/-- The three keyword-anchored line patterns of `_extract_from_line`
(lines 60-64), tried in order on the lowered line; per pattern only the
first match is examined (`re.search`), and an invalid first match sends
the loop to the next pattern. -/
def lineAnchoredScan (lineLower : Text) : Option Text :=
  pickFirst (fun kw =>
    match searchFirst (kwAnchoredTry kw) lineLower.length lineLower with
    | some cand => if isValidInvoiceNumber cand then some (upperText cand) else none
    | none => none)
    [tx "invoice", tx "inv", tx "bill"]

/-- End position search for the standalone token pattern: the largest
`k` with `3 ≤ k ≤ bound` such that a `\b` boundary holds after the first
`k` characters of `t` (the Python engine shrinks the greedy `{3,20}` until
the trailing `\b` holds). -/
def tokenEndOk (t : Text) (k : Nat) : Bool :=
  match t[k - 1]?, t[k]? with
  | some lastc, some nextc => isWordCh lastc != isWordCh nextc
  | some lastc, none => isWordCh lastc
  | none, _ => false

def findTokenEnd (t : Text) : Nat → Option Nat
  | 0 => none
  | k + 1 =>
    if k + 1 < 3 then none
    else if tokenEndOk t (k + 1) then some (k + 1)
    else findTokenEnd t k

/-- The standalone token pattern `\b[A-Z0-9\-]{3,20}\b` (IGNORECASE) of
`_extract_from_line` line 76, applied to the original-case line. -/
def invTokenTry (prev : Option Char) (t : Text) : Option (Text × Text) :=
  match t with
  | [] => none
  | c :: _ =>
    if !invGroupCh c then none
    else if !atBoundary prev c then none
    else
      let run := t.takeWhile invGroupCh
      match findTokenEnd t (min run.length 20) with
      | some k => some (t.take k, t.drop k)
      | none => none

/-- `re.findall(r'\b[A-Z0-9\-]{3,20}\b', line, re.IGNORECASE)`. -/
def standaloneTokens (line : Text) : List Text :=
  scanPrev invTokenTry line.length none line

/-- `InvoiceExtractor._extract_from_line` (lines 55-81): the keyword
anchored patterns first; then, only on a line containing `invoice`, the
standalone tokens of that same line. -/
def extractFromLine (line : Text) : Text :=
  let lineLower := lowerText line
  match lineAnchoredScan lineLower with
  | some r => r
  | none =>
    if containsSub (tx "invoice") lineLower then
      match pickFirst (fun tok =>
          if isValidInvoiceNumber tok then some (upperText tok) else none)
          (standaloneTokens line) with
      | some r => r
      | none => []
    else []

/-- The full-text fallback of `extract_invoice_number` (lines 45-51): every
pattern in order, every match of a pattern in order, first valid candidate
upper-cased. -/
def invoiceFullTextScan (text : Text) : Text :=
  let lower := lowerText text
  match pickFirst (fun m =>
      pickFirst (fun cand =>
        if isValidInvoiceNumber cand then some (upperText cand) else none)
        (scanAll m lower.length lower)) invoiceFullPats with
  | some r => r
  | none => []

/-- The line loop of `extract_invoice_number` (lines 37-42): for each line
whose lowered, stripped form contains `invoice`, `inv` or `bill`, run
`_extract_from_line` and return its result if non-empty. -/
def invoiceLineLoop : List Text → Option Text
  | [] => none
  | line :: rest =>
    let lineLower := pyStrip (lowerText line)
    if containsSub (tx "invoice") lineLower || containsSub (tx "inv") lineLower ||
        containsSub (tx "bill") lineLower then
      let r := extractFromLine line
      if r ≠ [] then some r else invoiceLineLoop rest
    else invoiceLineLoop rest

/-- `InvoiceExtractor.extract_invoice_number` (lines 32-53). -/
def extractInvoiceNumber (text : Text) : Text :=
  match invoiceLineLoop (splitOnCh '\n' text) with
  | some r => r
  | none => invoiceFullTextScan text

/-- `vendor_keywords` of `VendorExtractor.__init__` (lines 12-16). -/
def vendorKeywords : List Text :=
  [tx "vendor", tx "supplier", tx "company", tx "corp", tx "corporation", tx "inc",
   tx "incorporated", tx "ltd", tx "limited", tx "llc", tx "llp", tx "pllc", tx "co",
   tx "group", tx "enterprises", tx "services", tx "solutions", tx "systems",
   tx "technologies", tx "industries"]

/-- `exclude_words` of `VendorExtractor.__init__` (lines 19-25). -/
def excludeWords : List Text :=
  [tx "invoice", tx "bill", tx "receipt", tx "statement", tx "total", tx "amount",
   tx "payment", tx "date", tx "number", tx "account", tx "customer", tx "order",
   tx "purchase", tx "sale", tx "tax", tx "shipping", tx "delivery", tx "address",
   tx "phone", tx "email", tx "website", tx "terms", tx "conditions", tx "description",
   tx "quantity", tx "price", tx "subtotal", tx "discount", tx "balance", tx "due",
   tx "paid", tx "remit", tx "billing", tx "contact"]

/-- Case-insensitive literal prefix test (the literal is given lowered). -/
def startsWithCI (pat : Text) (t : Text) : Bool :=
  startsWithT pat (lowerText (t.take pat.length))

/-- A word `[A-Z][a-z]+` of the title-case phrase patterns. -/
def grabTCWord (t : Text) : Option (Text × Text) :=
  match t with
  | c :: cs =>
    if c.isUpper then
      let ls := cs.takeWhile Char.isLower
      if ls = [] then none else some (c :: ls, cs.drop ls.length)
    else none
  | [] => none

/-- A word `[A-Z]{2,}` of the all-caps phrase pattern, taken maximally:
giving characters back would expose an upper-case (word) character, on
which neither the following `\s+` nor a trailing `\b` can succeed, so only
the maximal run is viable. -/
def grabCapsRun (t : Text) : Option (Text × Text) :=
  let run := t.takeWhile Char.isUpper
  if run.length < 2 then none else some (run, t.drop run.length)

/-- Successive phrase states `(phrase so far, rest)` for a repetition
`(?:\s+word)*`: index `i` in the returned list is the state after `i`
extensions, in increasing order.  `lim` bounds the number of extensions
(4 for the `{1,4}` of the title-case pattern, the text length otherwise). -/
def phraseStatesAux (grab : Text → Option (Text × Text)) :
    Nat → Text → Text → Nat → List (Text × Text)
  | 0, ph, rest, _ => [(ph, rest)]
  | _ + 1, ph, rest, 0 => [(ph, rest)]
  | f + 1, ph, rest, lim + 1 =>
    let ws := rest.takeWhile isWsCh
    if ws = [] then [(ph, rest)]
    else
      match grab (rest.drop ws.length) with
      | some (w, r2) => (ph, rest) :: phraseStatesAux grab f (ph ++ ws ++ w) r2 lim
      | none => [(ph, rest)]

/-- Trailing `\b` after a phrase (phrases end in a letter, a word
character): the next character must be absent or a non-word character. -/
def capEndOk (rest : Text) : Bool :=
  match rest with
  | [] => true
  | c :: _ => !isWordCh c

/-- The Python engine takes the repetition greedily and shrinks it until
the trailing `\b` holds: the last boundary-good state is the match. -/
def pickGreedyState (states : List (Text × Text)) : Option (Text × Text) :=
  (states.filter (fun st => capEndOk st.2)).getLast?

/-- Phrase matcher `\b W (?:\s+ W)* \b` for a word shape `W` starting with
an upper-case letter; `minOne` demands at least one extension (the `{1,4}`
of the title-case pattern), `lim` bounds the extensions. -/
def phraseTry (grab : Text → Option (Text × Text)) (minOne : Bool) (lim : Nat)
    (prev : Option Char) (t : Text) : Option (Text × Text) :=
  match t with
  | [] => none
  | c :: _ =>
    if !c.isUpper then none
    else if !atBoundary prev c then none
    else
      match grab t with
      | none => none
      | some (w1, r1) =>
        let states := phraseStatesAux grab r1.length w1 r1 lim
        pickGreedyState (if minOne then states.tail else states)

/-- `re.findall(r'\b[A-Z][a-z]+(?:\s+[A-Z][a-z]+)*\b', context)` of
`_find_near_keywords` line 66. -/
def capWordsAll (ctx : Text) : List Text :=
  scanPrev (fun prev t => phraseTry grabTCWord false t.length prev t) ctx.length none ctx

/-- The window pattern `(?i)\b{keyword}\b.{0,100}` of `_find_near_keywords`
line 60: the keyword with word boundaries, then up to 100 characters of the
same line (`.` does not match a newline), taken greedily.  The capture is
the original-case slice. -/
def kwWindowTry (kw : Text) (prev : Option Char) (t : Text) : Option (Text × Text) :=
  match t with
  | [] => none
  | c :: _ =>
    if !atBoundary prev c then none
    else if !startsWithCI kw t then none
    else
      let afterKw := t.drop kw.length
      let bOk := match afterKw with
        | [] => true
        | d :: _ => !isWordCh d
      if !bOk then none
      else
        let w := (afterKw.takeWhile (fun d => d != '\n')).take 100
        some (t.take kw.length ++ w, afterKw.drop w.length)

/-- `VendorExtractor._find_near_keywords` (lines 54-69): for every keyword,
for every window match, the title-case word sequences inside the window. -/
def findNearKeywords (vkws : List Text) (text : Text) : List Text :=
  vkws.flatMap (fun kw =>
    (scanPrev (kwWindowTry kw) text.length none text).flatMap capWordsAll)

/-- `VendorExtractor._find_title_case_names` (lines 71-84): phrases
`\b[A-Z][a-z]+(?:\s+[A-Z][a-z]+){1,4}\b`, dropping phrases containing an
excluded term (case-insensitive substring) and keeping multi-word
phrases. -/
def findTitleCaseNames (excl : List Text) (text : Text) : List Text :=
  ((scanPrev (fun prev t => phraseTry grabTCWord true 4 prev t) text.length none text).filter
    (fun m => !excl.any (fun e => containsSub e (lowerText m)))).filter
    (fun m => decide (2 ≤ (splitWsTokens m).length))

/-- Python `str.isupper` (ASCII): at least one letter and no lower-case
letter. -/
def isUpperStr (t : Text) : Bool :=
  t.any Char.isAlpha && !(t.any Char.isLower)

/-- `VendorExtractor._find_all_caps_names` (lines 86-100): phrases
`\b[A-Z]{2,}(?:\s+[A-Z]{2,})*\b`, kept when of length at least 3, with no
excluded term (upper-cased substring test) and not matching
`^[A-Z]{1,3}$`. -/
def findAllCapsNames (excl : List Text) (text : Text) : List Text :=
  (scanPrev (fun prev t => phraseTry grabCapsRun false t.length prev t) text.length none text).filter
    (fun m =>
      decide (3 ≤ m.length) &&
      !excl.any (fun e => containsSub (upperText e) m) &&
      !(decide (1 ≤ m.length) && decide (m.length ≤ 3) && m.all Char.isUpper))

/-- Suffix alternation of the first pattern of `_find_company_suffixes`
(line 105), lowered for the IGNORECASE comparison, in source order (the
engine tries `corp` before `corporation`; a failing trailing `\b` sends it
to the next alternative). -/
def coSuffixAlts1 : List Text :=
  [tx "corp", tx "corporation", tx "inc", tx "incorporated", tx "ltd", tx "limited",
   tx "llc", tx "llp", tx "pllc", tx "co"]

/-- Suffix alternation of the second pattern (line 106). -/
def coSuffixAlts2 : List Text :=
  [tx "group", tx "enterprises", tx "services", tx "solutions", tx "systems",
   tx "technologies", tx "industries"]

/-- Body class `[a-zA-Z\s&]` of the suffix patterns. -/
def suffixBodyCh (c : Char) : Bool := c.isAlpha || isWsCh c || c = '&'

/-- Backtracking of `[a-zA-Z\s&]+` before the suffix alternation: the body
run is taken maximally and shrunk position by position; at each split the
alternatives are tried in order, each with its trailing `\b`.  Returns the
total matched length. -/
def suffixEndAux (t : Text) (alts : List Text) : Nat → Option Nat
  | 0 => none
  | j + 1 =>
    match pickFirst (fun alt =>
        let r := t.drop (1 + (j + 1))
        if startsWithCI alt r then
          let after := r.drop alt.length
          match after with
          | [] => some (1 + (j + 1) + alt.length)
          | d :: _ => if isWordCh d then none else some (1 + (j + 1) + alt.length)
        else none) alts with
    | some len => some len
    | none => suffixEndAux t alts j

/-- Matcher for `\b[A-Z][a-zA-Z\s&]+(?:ALTS)\b` with IGNORECASE
(`[A-Z]` under IGNORECASE is any letter). -/
def suffixPhraseTry (alts : List Text) (prev : Option Char) (t : Text) :
    Option (Text × Text) :=
  match t with
  | [] => none
  | c :: cs =>
    if !c.isAlpha then none
    else if !atBoundary prev c then none
    else
      let run := cs.takeWhile suffixBodyCh
      match suffixEndAux t alts run.length with
      | some len => some (t.take len, t.drop len)
      | none => none

/-- `VendorExtractor._find_company_suffixes` (lines 102-114). -/
def findCompanySuffixes (text : Text) : List Text :=
  scanPrev (suffixPhraseTry coSuffixAlts1) text.length none text ++
  scanPrev (suffixPhraseTry coSuffixAlts2) text.length none text

/-- Python `str.istitle` (ASCII): upper-case letters only at the start of a
cased run, lower-case letters only inside one, and at least one cased
character. -/
def isTitleAux : Text → Bool → Bool
  | [], _ => true
  | c :: cs, prevCased =>
    if c.isUpper then (if prevCased then false else isTitleAux cs true)
    else if c.isLower then (if prevCased then isTitleAux cs true else false)
    else isTitleAux cs false

def isTitleStr (t : Text) : Bool :=
  t.any Char.isAlpha && isTitleAux t false

/-- The business suffix list of `_score_candidate` (lines 149-150). -/
def businessSuffixes : List Text :=
  [tx "corp", tx "corporation", tx "inc", tx "incorporated", tx "ltd", tx "limited",
   tx "llc", tx "llp", tx "pllc", tx "co", tx "group", tx "enterprises"]

/-- `VendorExtractor._score_candidate` (lines 131-170), parameterized by
the excluded-word list held by the extractor object. -/
def scoreCandidate (excl : List Text) (cand : Text) : Int :=
  let lower := lowerText cand
  let s1 : Int :=
    if 10 ≤ cand.length ∧ cand.length ≤ 50 then 10
    else if 5 ≤ cand.length ∧ cand.length ≤ 60 then 5
    else 0
  let s2 : Int := if 2 ≤ (splitWsTokens cand).length then 15 else 0
  let s3 : Int := if businessSuffixes.any (fun suf => containsSub suf lower) then 20 else 0
  let s4 : Int := if isTitleStr cand then 10 else 0
  let s5 : Int := if excl.any (fun e => containsSub e lower) then -20 else 0
  let s6 : Int := if isUpperStr cand ∧ 10 < cand.length then -5 else 0
  let s7 : Int := if cand.any Char.isDigit then -10 else 0
  s1 + s2 + s3 + s4 + s5 + s6 + s7

/-- `VendorExtractor._select_best_candidate` (lines 116-129): stable sort
of the scored candidates, descending by score (`reverse=True`), then the
first candidate, stripped. -/
def selectBestCandidate (excl : List Text) (cands : List Text) : Text :=
  match cands with
  | [] => []
  | _ =>
    pyStrip ((stableSortByKey (fun c => -(scoreCandidate excl c)) cands).headD [])

/-- The candidate collection of `VendorExtractor.extract_vendor`
(lines 29-45): the four strategies in source order. -/
def collectVendorCandidates (vkws excl : List Text) (text : Text) : List Text :=
  findNearKeywords vkws text ++ findTitleCaseNames excl text ++
  findAllCapsNames excl text ++ findCompanySuffixes text

/-- `VendorExtractor.extract_vendor` (lines 27-52). -/
def extractVendorWith (vkws excl : List Text) (text : Text) : Text :=
  let cands := collectVendorCandidates vkws excl text
  if cands ≠ [] then selectBestCandidate excl cands else []

def extractVendor (text : Text) : Text :=
  extractVendorWith vendorKeywords excludeWords text

/-- Position tracking scanner for the date patterns: like `scanAll` but the
matcher reports the consumed length and the scanner records the span
`[start, end)` of every match, needed for the context snippets.  Every
matcher below consumes at least one character. -/
def scanPos (m : Text → Option (Text × Nat)) : Nat → Nat → Text → List (Text × Nat × Nat)
  | 0, _, _ => []
  | _, _, [] => []
  | f + 1, o, c :: cs =>
    match m (c :: cs) with
    | some (cap, k) => (cap, o, o + k) :: scanPos m f (o + k) (List.drop (k - 1) cs)
    | none => scanPos m f (o + 1) cs

def dateSepCh (c : Char) : Bool := c = '/' || c = '-' || c = '.'

/-- A `[0-9]{1,2}` part that a separator must follow: deterministic, since
a digit run of three or more leaves a digit where the separator has to
stand, which no amount of shrinking inside `{1,2}` can repair. -/
def matchDatePart12 (t : Text) : Option (Text × Text) :=
  let run := t.takeWhile Char.isDigit
  if run.length = 1 || run.length = 2 then some (run, t.drop run.length) else none

/-- The date token `[0-9]{1,2}[\/\-\.][0-9]{1,2}[\/\-\.][0-9]{ymin,ymax}`
(the year part is final, so its greedy take is the match). -/
def matchDateDDY (ymin ymax : Nat) (t : Text) : Option (Text × Text) :=
  match matchDatePart12 t with
  | some (d1, r1) =>
    match r1 with
    | s1 :: r2 =>
      if dateSepCh s1 then
        match matchDatePart12 r2 with
        | some (d2, r3) =>
          match r3 with
          | s2 :: r4 =>
            if dateSepCh s2 then
              let run := r4.takeWhile Char.isDigit
              if run.length < ymin then none
              else
                let y := run.take ymax
                some (d1 ++ s1 :: d2 ++ s2 :: y, r4.drop y.length)
            else none
          | [] => none
        | none => none
      else none
    | [] => none
  | none => none

/-- The date token `[0-9]{4}[\/\-\.][0-9]{1,2}[\/\-\.][0-9]{1,2}`
(generic pattern 2). -/
def matchDateYDD (t : Text) : Option (Text × Text) :=
  let run := t.takeWhile Char.isDigit
  if run.length < 4 then none
  else
    let y := run.take 4
    match t.drop 4 with
    | s1 :: r2 =>
      if dateSepCh s1 then
        match matchDatePart12 r2 with
        | some (d1, r3) =>
          match r3 with
          | s2 :: r4 =>
            if dateSepCh s2 then
              let run2 := r4.takeWhile Char.isDigit
              if run2 = [] then none
              else
                let d2 := run2.take 2
                some (y ++ s1 :: d1 ++ s2 :: d2, r4.drop d2.length)
            else none
          | [] => none
        | none => none
      else none
    | [] => none

/-- Month literals of the generic month-name patterns, lowered for the
IGNORECASE comparison; the alternation is prefix free. -/
def monthLits : List Text :=
  [tx "jan", tx "feb", tx "mar", tx "apr", tx "may", tx "jun", tx "jul", tx "aug",
   tx "sep", tx "oct", tx "nov", tx "dec"]

/-- `(?:Jan|...|Dec)[a-z]*` with IGNORECASE: a month code then a greedy run
of letters (the following `\s+` cannot consume letters, so greedy is the
match). -/
def matchMonthName (t : Text) : Option (Text × Text) :=
  match pickFirst (fun mo => if startsWithCI mo t then some mo else none) monthLits with
  | some _ =>
    let extra := (t.drop 3).takeWhile Char.isAlpha
    some (t.take (3 + extra.length), t.drop (3 + extra.length))
  | none => none

/-- Tail `[0-9]{k},?\s+[0-9]{4}` of generic pattern 4 for a fixed day
width `k`. -/
def dayCommaWsYear (r : Text) (k : Nat) : Option Text :=
  let day := r.takeWhile Char.isDigit
  if day.length = k then
    let r3 := r.drop k
    let r4 := match r3 with
      | ',' :: cs => cs
      | _ => r3
    let ws := r4.takeWhile isWsCh
    if ws = [] then none
    else
      let r5 := r4.drop ws.length
      let yrun := r5.takeWhile Char.isDigit
      if yrun.length < 4 then none else some (r5.drop 4)
  else none

/-- Generic pattern 4, `(?:Jan|...)[a-z]*\s+[0-9]{1,2},?\s+[0-9]{4}`;
returns the rest after the match. -/
def genMonthDayYear (t : Text) : Option Text :=
  match matchMonthName t with
  | some (_, r1) =>
    let ws := r1.takeWhile isWsCh
    if ws = [] then none
    else
      let r2 := r1.drop ws.length
      match dayCommaWsYear r2 2 with
      | some rest => some rest
      | none => dayCommaWsYear r2 1
  | none => none

/-- Generic pattern 5, `[0-9]{1,2}\s+(?:Jan|...)[a-z]*\s+[0-9]{4}`;
returns the rest after the match. -/
def genDayMonthYear (t : Text) : Option Text :=
  match matchDatePart12 t with
  | some (_, r1) =>
    let ws := r1.takeWhile isWsCh
    if ws = [] then none
    else
      match matchMonthName (r1.drop ws.length) with
      | some (_, r2) =>
        let ws2 := r2.takeWhile isWsCh
        if ws2 = [] then none
        else
          let r3 := r2.drop ws2.length
          let yrun := r3.takeWhile Char.isDigit
          if yrun.length < 4 then none else some (r3.drop 4)
      | none => none
  | none => none

/-- Wrap a rest-returning matcher as a `(capture, consumed)` matcher (the
capture of the generic patterns is the whole match, a prefix of `t`). -/
def wrapWhole (m : Text → Option Text) (t : Text) : Option (Text × Nat) :=
  match m t with
  | some rest => some (t.take (t.length - rest.length), t.length - rest.length)
  | none => none

def wrapWholePair (m : Text → Option (Text × Text)) (t : Text) : Option (Text × Nat) :=
  match m t with
  | some (cap, rest) => some (cap, t.length - rest.length)
  | none => none

/-- `generic_patterns` of `DateExtractor.__init__` (lines 38-44), in source
order. -/
def genericPats : List (Text → Option (Text × Nat)) :=
  [wrapWholePair (matchDateDDY 4 4), wrapWholePair matchDateYDD,
   wrapWholePair (matchDateDDY 2 2), wrapWhole genMonthDayYear, wrapWhole genDayMonthYear]

/-- Labeled pattern shape `{kw1}\s*{kw2}[:\s]*([0-9]{1,2}[\/\-\.][0-9]{1,2}[\/\-\.][0-9]{2,4})`;
the consumed length spans the whole match, as used for the snippet. -/
def labeledTry2 (kw1 kw2 : Text) (t : Text) : Option (Text × Nat) :=
  if startsWithT kw1 t then
    let r1 := skipWs (t.drop kw1.length)
    if startsWithT kw2 r1 then
      let r2 := (r1.drop kw2.length).dropWhile (fun c => c = ':' || isWsCh c)
      match matchDateDDY 2 4 r2 with
      | some (cap, rest) => some (cap, t.length - rest.length)
      | none => none
    else none
  else none

/-- Labeled pattern shape `{kw}[:\s]*([0-9]{1,2}[\/\-\.][0-9]{1,2}[\/\-\.][0-9]{2,4})`. -/
def labeledTry1 (kw : Text) (t : Text) : Option (Text × Nat) :=
  if startsWithT kw t then
    let r2 := (t.drop kw.length).dropWhile (fun c => c = ':' || isWsCh c)
    match matchDateDDY 2 4 r2 with
    | some (cap, rest) => some (cap, t.length - rest.length)
    | none => none
  else none

/-- `date_patterns` of `DateExtractor.__init__` (lines 14-35): label keys
in dictionary (source) order, three patterns per label. -/
def dateLabelPatterns : List (Text × List (Text → Option (Text × Nat))) :=
  [(tx "invoice", [labeledTry2 (tx "invoice") (tx "date"), labeledTry2 (tx "inv") (tx "date"),
                   labeledTry1 (tx "invoice")]),
   (tx "due", [labeledTry2 (tx "due") (tx "date"), labeledTry2 (tx "payment") (tx "due"),
               labeledTry1 (tx "due")]),
   (tx "order", [labeledTry2 (tx "order") (tx "date"), labeledTry2 (tx "po") (tx "date"),
                 labeledTry2 (tx "purchase") (tx "date")]),
   (tx "ship", [labeledTry2 (tx "ship") (tx "date"), labeledTry2 (tx "shipping") (tx "date"),
                labeledTry1 (tx "shipped")])]

/-- One extracted date record of `DateExtractor.extract_dates`. -/
structure DateInfo where
  raw : Text
  formatted : Text
  label : Text
  snippet : Text
  confidence : Text
deriving DecidableEq, Repr

/-- `DateExtractor._get_context_snippet` (lines 109-119): a slice of the
original text 50 characters around the match, stripped and whitespace
collapsed. -/
def contextSnippet (text : Text) (s e : Nat) : Text :=
  let a := if 50 ≤ s then s - 50 else 0
  let b := min text.length (e + 50)
  joinWith (tx " ") (splitWsTokens (pyStrip ((text.take b).drop a)))

/-- Modelled from the spec: `DateExtractor._parse_date` delegates to the
third-party `dateutil` fuzzy parser, which is not part of this repository.
Following the spec (fuzzy, locale tolerant parsing of the numeric and
month-name shapes the patterns produce), the model reads the matched token
as month/day/year (year first when the leading run has four digits,
day/month when the leading number cannot be a month), windows two digit
years into 1950-2049 and checks the calendar (month 1-12, day within the
month, Gregorian leap years).  No theorem below depends on the details of
this model. -/
def parseDateModel (s : Text) : Option (Nat × Nat × Nat) :=
  let fixYear := fun (y : Nat) (digits : Nat) =>
    if digits ≤ 2 then (if y ≤ 49 then 2000 + y else 1900 + y) else y
  let daysIn := fun (m y : Nat) =>
    if m = 2 then (if y % 4 = 0 && (y % 100 != 0 || y % 400 = 0) then 29 else 28)
    else if m = 4 || m = 6 || m = 9 || m = 11 then 30
    else 31
  let mkDate := fun (m d y : Nat) =>
    if 1 ≤ m && m ≤ 12 && 1 ≤ d && d ≤ daysIn m y then some (m, d, y) else none
  let numeric := fun (a b c : Text) =>
    let na := natOfDigits a
    let nb := natOfDigits b
    let nc := natOfDigits c
    if a.length = 4 then mkDate nb nc na
    else
      let y := fixYear nc c.length
      match mkDate na nb y with
      | some r => some r
      | none => mkDate nb na y
  let monthNum := fun (mon : Text) =>
    ((monthLits.zip (List.range 12)).find? (fun p => startsWithT p.1 (lowerText mon))).map
      (fun p => p.2 + 1)
  match matchDateDDY 2 4 s with
  | some (_, rest) =>
    if rest = [] then
      let a := s.takeWhile Char.isDigit
      let r1 := s.drop (a.length + 1)
      let b := r1.takeWhile Char.isDigit
      let c := r1.drop (b.length + 1)
      numeric a b c
    else none
  | none =>
    match matchDateYDD s with
    | some (_, rest) =>
      if rest = [] then
        let a := s.takeWhile Char.isDigit
        let r1 := s.drop 5
        let b := r1.takeWhile Char.isDigit
        let c := r1.drop (b.length + 1)
        mkDate (natOfDigits b) (natOfDigits c) (natOfDigits a)
      else none
    | none =>
      match matchMonthName s with
      | some (mon, r1) =>
        let r2 := r1.dropWhile (fun c => isWsCh c || c = ',')
        let d := r2.takeWhile Char.isDigit
        let r3 := (r2.drop d.length).dropWhile (fun c => isWsCh c || c = ',')
        let y := r3.takeWhile Char.isDigit
        match monthNum mon with
        | some m =>
          if d ≠ [] ∧ y ≠ [] then mkDate m (natOfDigits d) (fixYear (natOfDigits y) y.length)
          else none
        | none => none
      | none =>
        match matchDatePart12 s with
        | some (d, r1) =>
          let r2 := r1.dropWhile isWsCh
          match matchMonthName r2 with
          | some (mon, r3) =>
            let r4 := r3.dropWhile isWsCh
            let y := r4.takeWhile Char.isDigit
            match monthNum mon with
            | some m =>
              if y ≠ [] then mkDate m (natOfDigits d) (fixYear (natOfDigits y) y.length)
              else none
            | none => none
          | none => none
        | none => none

/-- `DateExtractor._parse_date` (lines 91-107): strip, parse, and discard
years outside [1900, 2100] (the range check is source code; the parse
itself is the spec-modelled `parseDateModel`). -/
def parseDateChecked (s : Text) : Option (Nat × Nat × Nat) :=
  match parseDateModel (pyStrip s) with
  | some (m, d, y) => if 1900 ≤ y ∧ y ≤ 2100 then some (m, d, y) else none
  | none => none

def pad4 (n : Nat) : Text :=
  let ds := natDigitsT n
  List.replicate (4 - ds.length) '0' ++ ds

/-- `parsed.strftime('%m/%d/%Y')`. -/
def formatMMDDYYYY (m d y : Nat) : Text :=
  pad2 m ++ '/' :: (pad2 d ++ '/' :: pad4 y)

/-- The labeled pass of `DateExtractor.extract_dates` (lines 51-65) over
the lowered text; snippets come from the original text at the match
span. -/
def labeledPass (text : Text) : List DateInfo :=
  let lower := lowerText text
  dateLabelPatterns.flatMap (fun lp =>
    lp.2.flatMap (fun m =>
      (scanPos m lower.length 0 lower).filterMap (fun ms =>
        match parseDateChecked ms.1 with
        | some (mo, d, y) =>
          some ⟨ms.1, formatMMDDYYYY mo d y, lp.1, contextSnippet text ms.2.1 ms.2.2, tx "high"⟩
        | none => none)))

/-- The generic pass of `extract_dates` (lines 68-85) over the
original-case text, appending to the labeled findings and skipping any
match whose raw string (case-insensitively) already occurs among the
findings accumulated so far. -/
def genericPass (text : Text) (dates0 : List DateInfo) : List DateInfo :=
  genericPats.foldl (fun acc m =>
    (scanPos m text.length 0 text).foldl (fun acc ms =>
      if acc.any (fun d => lowerText d.raw = lowerText ms.1) then acc
      else
        match parseDateChecked ms.1 with
        | some (mo, d, y) =>
          acc ++ [⟨ms.1, formatMMDDYYYY mo d y, tx "unknown", contextSnippet text ms.2.1 ms.2.2,
                   tx "medium"⟩]
        | none => acc) acc) dates0

/-- The candidate list built by `extract_dates` before deduplication: the
labeled findings, extended by the generic pass only when fewer than 3
labeled findings exist (line 68). -/
def collectDateCandidates (text : Text) : List DateInfo :=
  let labeled := labeledPass text
  if labeled.length < 3 then genericPass text labeled else labeled

/-- The label priority table of `_remove_duplicates` line 127 (and of
`TextProcessor._format_dates`): `priority.get(label, 5)`. -/
def prioOf (label : Text) : Nat :=
  if label = tx "invoice" then 1
  else if label = tx "due" then 2
  else if label = tx "order" then 3
  else if label = tx "ship" then 4
  else 5

/-- The seen-set loop of `_remove_duplicates` (lines 132-136); the Python
set is embedded as a membership list. -/
def dedupGo (seen : List Text) : List DateInfo → List DateInfo
  | [] => []
  | d :: ds =>
    if seen.contains d.formatted then dedupGo seen ds
    else d :: dedupGo (d.formatted :: seen) ds

/-- `DateExtractor._remove_duplicates` (lines 121-138): stable sort by
label priority, then keep the first occurrence of each formatted date. -/
def removeDuplicates (dates : List DateInfo) : List DateInfo :=
  dedupGo [] (stableSortByKey (fun d => prioOf d.label) dates)

/-- `DateExtractor.extract_dates` (lines 46-89). -/
def extractDates (text : Text) : List DateInfo :=
  (removeDuplicates (collectDateCandidates text)).take 3

/-- A record field value: Python record fields are strings except
`date_count`, an integer. -/
inductive RecVal where
  | s (t : Text)
  | n (k : Nat)
deriving DecidableEq, Repr

/-- A result record, embedded as its key/value pairs in dictionary
insertion order. -/
abbrev Record := List (Text × RecVal)

def recordKeys (r : Record) : List Text := r.map Prod.fst

/-- `TextProcessor._create_text_excerpt` (main.py lines 98-104) with the
default `max_length = 500`. -/
def createTextExcerpt (text : Text) : Text :=
  let cleaned := joinWith (tx " ") (splitWsTokens text)
  if cleaned.length ≤ 500 then cleaned else cleaned.take 500 ++ tx "..."

/-- `TextProcessor._format_dates` (main.py lines 106-140): the ten date
columns and the count; the dates are sorted again by label priority
(stable) and the first three fill the columns. -/
def formatDates (dates : List DateInfo) : Record :=
  let sorted := stableSortByKey (fun d => prioOf d.label) dates
  let get := fun (i : Nat) (f : DateInfo → Text) =>
    match sorted[i]? with
    | some d => f d
    | none => []
  [(tx "date_primary_mmddyyyy", .s (get 0 (fun d => d.formatted))),
   (tx "date1_mmddyyyy", .s (get 0 (fun d => d.formatted))),
   (tx "date1_label", .s (get 0 (fun d => d.label))),
   (tx "date1_snippet", .s (get 0 (fun d => d.snippet))),
   (tx "date2_mmddyyyy", .s (get 1 (fun d => d.formatted))),
   (tx "date2_label", .s (get 1 (fun d => d.label))),
   (tx "date2_snippet", .s (get 1 (fun d => d.snippet))),
   (tx "date3_mmddyyyy", .s (get 2 (fun d => d.formatted))),
   (tx "date3_label", .s (get 2 (fun d => d.label))),
   (tx "date3_snippet", .s (get 2 (fun d => d.snippet))),
   (tx "date_count", .n dates.length)]

/-- `TextProcessor._create_empty_result` (main.py lines 142-163). -/
def createEmptyResult (filename err : Text) : Record :=
  [(tx "filename", .s filename),
   (tx "text_excerpt", .s []),
   (tx "date_primary_mmddyyyy", .s []),
   (tx "date1_mmddyyyy", .s []),
   (tx "date1_label", .s []),
   (tx "date1_snippet", .s []),
   (tx "date2_mmddyyyy", .s []),
   (tx "date2_label", .s []),
   (tx "date2_snippet", .s []),
   (tx "date3_mmddyyyy", .s []),
   (tx "date3_label", .s []),
   (tx "date3_snippet", .s []),
   (tx "date_count", .n 0),
   (tx "possible_vendor", .s []),
   (tx "invoice_no", .s []),
   (tx "total", .s []),
   (tx "other_amounts", .s []),
   (tx "errors", .s err)]

/-- `TextProcessor.process_file` (main.py lines 43-77), parameterized by
the keyword lists held by the extractor objects.  `readResult` is the
return of the external collaborator `read_text_file` (`none` embeds
Python `None`; `none` and the empty string are both falsy, producing the
`"Empty file"` record).  `exn` models an exception raised inside the
extraction chain and caught by the `except` of line 75, carrying its
`str(e)` description; the embedded extractors are total functions, so the
exception is an input of the model rather than a behavior of it. -/
def processFileWith (tkws vkws excl : List Text) (filename : Text)
    (readResult : Option Text) (exn : Option Text) : Record :=
  match readResult with
  | none => createEmptyResult filename (tx "Empty file")
  | some text =>
    if text = [] then createEmptyResult filename (tx "Empty file")
    else
      match exn with
      | some msg => createEmptyResult filename msg
      | none =>
        [(tx "filename", .s filename),
         (tx "text_excerpt", .s (createTextExcerpt text))] ++
        formatDates (extractDates text) ++
        [(tx "possible_vendor", .s (extractVendorWith vkws excl text)),
         (tx "invoice_no", .s (extractInvoiceNumber text)),
         (tx "total", .s (extractAmountsWith tkws text).1),
         (tx "other_amounts", .s (extractAmountsWith tkws text).2),
         (tx "errors", .s [])]

def processFile (filename : Text) (readResult : Option Text) (exn : Option Text) : Record :=
  processFileWith totalKeywords vendorKeywords excludeWords filename readResult exn

/-- The column list of `_save_to_csv` (main.py lines 175-182): the fixed
18 record fields. -/
def theEighteenFields : List Text :=
  [tx "filename", tx "text_excerpt", tx "date_primary_mmddyyyy",
   tx "date1_mmddyyyy", tx "date1_label", tx "date1_snippet",
   tx "date2_mmddyyyy", tx "date2_label", tx "date2_snippet",
   tx "date3_mmddyyyy", tx "date3_label", tx "date3_snippet",
   tx "date_count", tx "possible_vendor", tx "invoice_no",
   tx "total", tx "other_amounts", tx "errors"]

/-- The mutable data the four extractor objects hold: the keyword and word
lists assigned once in their `__init__` methods.  No extractor method
assigns an attribute, so a call leaves this state unchanged. -/
structure PipelineState where
  total_keywords : List Text
  vendor_keywords : List Text
  exclude_words : List Text
deriving DecidableEq, Repr

def initState : PipelineState :=
  ⟨totalKeywords, vendorKeywords, excludeWords⟩

/-- State threaded `process_file`: the record computed from the held lists
together with the object state after the call, which the source never
mutates. -/
def processFileSt (st : PipelineState) (filename : Text) (readResult : Option Text)
    (exn : Option Text) : Record × PipelineState :=
  (processFileWith st.total_keywords st.vendor_keywords st.exclude_words filename readResult exn,
   st)

/-- The language of the cleaned amount strings the program can feed
`_is_valid_amount`: every capture group of the currency patterns is
`([0-9,]+\.?[0-9]*)` and `_clean_amount` is the identity on strings of
that shape, so a cleaned amount is a non-empty run of digits and commas,
optionally followed by a period and a run of digits. -/
def CleanedAmount (s : Text) : Prop :=
  ∃ a rest, s = a ++ rest ∧ a ≠ [] ∧ a.all isAmtCh ∧
    (rest = [] ∨ ∃ ds, rest = '.' :: ds ∧ ds.all Char.isDigit = true)

/-- The amount validity predicate as claim C7 words it: at least one
digit, at most one decimal point, at most two fractional digits (the
characters after the decimal point), and a parsed numeric value in
[0.01, 999999999.99]. -/
def specValidAmountC7 (s : Text) : Prop :=
  s.any Char.isDigit = true ∧
  (s.filter (fun c => c = '.')).length ≤ 1 ∧
  ((s.dropWhile (fun c => c != '.')).drop 1).length ≤ 2 ∧
  ∃ v, amountToVal s = some v ∧
    (1 : Rat) / 100 ≤ valToRat v ∧ valToRat v ≤ (99999999999 : Rat) / 100

/-- Clean-then-validate pipeline applied to a raw matched amount string
(the composition the boundary examples of claim C7 exercise). -/
def checkRawAmount (r : Text) : Bool :=
  match cleanAmount r with
  | some c => isValidAmount c
  | none => false

/-- Stripping the separators named by claim C4. -/
def stripSeps (c : Text) : Text :=
  c.filter (fun ch => !(ch = '-' || ch = '_' || ch = ' '))

/-- The invoice-number validity predicate exactly as claim C4 words it:
length after separator stripping at least 3, a digit, a full (strict)
match of `[A-Za-z0-9_-]{3,20}`, no stopword, and mixed letters/digits or
purely numeric of length at least 4. -/
def claimValidC4 (cand : Text) : Bool :=
  decide (3 ≤ (stripSeps cand).length) && cand.any Char.isDigit &&
  (decide (3 ≤ cand.length) && decide (cand.length ≤ 20) && cand.all invValidClassCh) &&
  !(invoiceStopwords.contains (lowerText cand)) &&
  ((cand.any Char.isAlpha && cand.any Char.isDigit) ||
    (cand.all Char.isDigit && decide (4 ≤ cand.length)))

/-- Claim C4 as amended: the length bound is on the raw candidate (the
source checks `len(candidate) < 3` before stripping) and the character
class test is the one `re.match` with a trailing `$` performs, which
tolerates one trailing newline. -/
def amendedValidC4 (cand : Text) : Bool :=
  decide (3 ≤ cand.length) && cand.any Char.isDigit && matchInvFullClass cand &&
  !(invoiceStopwords.contains (lowerText cand)) &&
  ((cand.any Char.isAlpha && cand.any Char.isDigit) ||
    (cand.all Char.isDigit && decide (4 ≤ cand.length)))

/-- The total selection of claim C1 as the spec words it (without the
redundant methods 2 and 3 of the source, which both return the largest
amount): the first keyword-adjacent amount present in the deduplicated
set, else the largest (first) amount. -/
def findTotalSpecC1 (text : Text) (amts : List Text) : Text :=
  match totalKeywordScan totalKeywords (lowerText text) amts with
  | some f => f
  | none => amts.headD []

/-- The per-line extraction as claim C5 is amended: the keyword-anchored
line patterns first, then — on the same line, when it contains
`invoice` — the standalone token fallback. -/
def lineResultSpecC5 (line : Text) : Option Text :=
  match lineAnchoredScan (lowerText line) with
  | some r => some r
  | none =>
    if containsSub (tx "invoice") (lowerText line) then
      pickFirst (fun tok => if isValidInvoiceNumber tok then some (upperText tok) else none)
        (standaloneTokens line)
    else none

/-- The guarded per-line step of the amended claim C5: lines whose lowered,
stripped form contains one of the keywords are examined, in top-to-bottom
order, each in full (anchored patterns, then same-line fallback) before any
later line. -/
def lineGuardSpecC5 (line : Text) : Option Text :=
  let ll := pyStrip (lowerText line)
  if containsSub (tx "invoice") ll || containsSub (tx "inv") ll || containsSub (tx "bill") ll then
    lineResultSpecC5 line
  else none

/-- Deduplication as claim C3 words it: keep each element whose formatted
date did not occur earlier in the list. -/
def dedupFirstSpec : List DateInfo → List DateInfo
  | [] => []
  | d :: ds => d :: dedupFirstSpec (ds.filter (fun e => e.formatted ≠ d.formatted))
termination_by l => l.length
decreasing_by
  have := List.length_filter_le (fun e => decide (e.formatted ≠ d.formatted)) ds
  simp only [List.length_cons]
  omega

theorem anyCongr {p q : α → Bool} :
    ∀ l : List α, (∀ a ∈ l, p a = q a) → l.any p = l.any q := by
  intro l
  induction l with
  | nil => intro _; rfl
  | cons x xs ih =>
    intro h
    simp only [List.any_cons]
    rw [h x (by simp), ih (fun a ha => h a (by simp [ha]))]

theorem dropWhileNeAll {c : Char} :
    ∀ l : Text, c ∉ l → l.dropWhile (fun x => x != c) = [] := by
  intro l
  induction l with
  | nil => intro _; rfl
  | cons x xs ih =>
    intro h
    have hx : x ≠ c := fun hc => h (hc ▸ List.mem_cons_self x xs)
    have hbx : (x != c) = true := by simp [hx]
    simp only [List.dropWhile, hbx]
    exact ih (fun hm => h (List.mem_cons_of_mem x hm))

theorem dropWhileNePrefix {c : Char} :
    ∀ (a b : Text), c ∉ a → (a ++ c :: b).dropWhile (fun x => x != c) = c :: b := by
  intro a
  induction a with
  | nil =>
    intro b _
    simp [List.dropWhile]
  | cons x xs ih =>
    intro b h
    have hx : x ≠ c := fun hc => h (hc ▸ List.mem_cons_self x xs)
    have hbx : (x != c) = true := by simp [hx]
    simp only [List.cons_append, List.dropWhile, hbx]
    exact ih b (fun hm => h (List.mem_cons_of_mem x hm))

theorem splitOnChNoSep {c : Char} :
    ∀ l : Text, c ∉ l → splitOnCh c l = [l] := by
  intro l
  induction l with
  | nil => intro _; rfl
  | cons x xs ih =>
    intro h
    have hx : x ≠ c := fun hc => h (hc ▸ List.mem_cons_self x xs)
    simp only [splitOnCh]
    rw [if_neg hx, ih (fun hm => h (List.mem_cons_of_mem x hm))]

theorem splitOnChPrefix {c : Char} :
    ∀ (a b : Text), c ∉ a → splitOnCh c (a ++ c :: b) = a :: splitOnCh c b := by
  intro a
  induction a with
  | nil =>
    intro b _
    simp [splitOnCh]
  | cons x xs ih =>
    intro b h
    have hx : x ≠ c := fun hc => h (hc ▸ List.mem_cons_self x xs)
    simp only [List.cons_append, splitOnCh, List.append_eq]
    rw [if_neg hx, ih b (fun hm => h (List.mem_cons_of_mem x hm))]

/-- The cross-multiplied range test of the embedded `_is_valid_amount` is
the rational interval [0.01, 999999999.99] of the claim. -/
theorem valRangeIff (v : DecVal) :
    (10 ^ v.pow ≤ 100 * v.num ∧ 100 * v.num ≤ 99999999999 * 10 ^ v.pow) ↔
      ((1 : Rat) / 100 ≤ valToRat v ∧ valToRat v ≤ (99999999999 : Rat) / 100) := by
  unfold valToRat
  have hd : (0 : Rat) < (10 : Rat) ^ v.pow := by positivity
  have h100 : (0 : Rat) < (100 : Rat) := by norm_num
  constructor
  · rintro ⟨h1, h2⟩
    constructor
    · rw [div_le_div_iff₀ h100 hd]
      calc (1 : Rat) * (10 : Rat) ^ v.pow = (10 : Rat) ^ v.pow := by ring
        _ ≤ (100 * v.num : Nat) := by
            push_cast
            exact_mod_cast (by exact_mod_cast h1 : ((10 ^ v.pow : Nat) : Rat) ≤ ((100 * v.num : Nat) : Rat))
        _ = (v.num : Rat) * 100 := by push_cast; ring
    · rw [div_le_div_iff₀ hd h100]
      calc (v.num : Rat) * 100 = ((100 * v.num : Nat) : Rat) := by push_cast; ring
        _ ≤ ((99999999999 * 10 ^ v.pow : Nat) : Rat) := by exact_mod_cast h2
        _ = (99999999999 : Rat) * (10 : Rat) ^ v.pow := by push_cast; ring
  · rintro ⟨h1, h2⟩
    rw [div_le_div_iff₀ h100 hd] at h1
    rw [div_le_div_iff₀ hd h100] at h2
    constructor
    · have : ((10 ^ v.pow : Nat) : Rat) ≤ ((100 * v.num : Nat) : Rat) := by
        push_cast
        calc ((10 : Rat) ^ v.pow) = 1 * (10 : Rat) ^ v.pow := by ring
          _ ≤ (v.num : Rat) * 100 := h1
          _ = 100 * (v.num : Rat) := by ring
      exact_mod_cast this
    · have : ((100 * v.num : Nat) : Rat) ≤ ((99999999999 * 10 ^ v.pow : Nat) : Rat) := by
        push_cast
        calc (100 : Rat) * (v.num : Rat) = (v.num : Rat) * 100 := by ring
          _ ≤ (99999999999 : Rat) * (10 : Rat) ^ v.pow := h2
      exact_mod_cast this

/-- C7: for every cleaned amount string, `_is_valid_amount` accepts it iff
it contains a digit, has at most one decimal point, at most 2 fractional
digits, and a parsed value in [0.01, 999999999.99]; in particular the raw
amounts `$0.00` and `$1000000000.00` are rejected while `$0.01` and
`$999999999.99` are accepted. -/
theorem claim_C7 :
    (∀ s : Text, CleanedAmount s → (isValidAmount s = true ↔ specValidAmountC7 s)) ∧
    checkRawAmount (tx "$0.00") = false ∧
    checkRawAmount (tx "$1000000000.00") = false ∧
    checkRawAmount (tx "$0.01") = true ∧
    checkRawAmount (tx "$999999999.99") = true := by
  refine ⟨?_, by decide, by decide, by decide, by decide⟩
  rintro s ⟨a, rest, rfl, ha, hall, hcase⟩
  have hdotA : '.' ∉ a := by
    intro hm
    have := List.all_eq_true.mp hall _ hm
    simp [isAmtCh] at this
  rcases hcase with rfl | ⟨ds, rfl, hds⟩
  · rw [List.append_nil]
    have hcont : a.contains '.' = false := by
      cases hc : a.contains '.' with
      | false => rfl
      | true => exact absurd (List.elem_iff.mp hc) hdotA
    have hfl : a.filter (fun c => decide (c = '.')) = [] := by
      rw [List.filter_eq_nil_iff]
      intro x hx hc
      exact hdotA ((by simpa using hc : x = '.') ▸ hx)
    have hdw : a.dropWhile (fun x => x != '.') = [] := dropWhileNeAll a hdotA
    unfold isValidAmount specValidAmountC7
    rw [if_neg ha, hcont, hfl, hdw]
    simp only [Bool.false_and, Bool.false_or, if_false, List.length_nil, List.drop_nil,
      Nat.zero_le, true_and]
    cases hd : a.any Char.isDigit with
    | false => simp
    | true =>
      simp only [Bool.not_true, if_false, Bool.true_eq, true_and]
      cases hp : amountToVal a with
      | none => simp
      | some v =>
        rw [show (∃ w, some v = some w ∧ (1 : Rat) / 100 ≤ valToRat w ∧
          valToRat w ≤ (99999999999 : Rat) / 100) ↔
          ((1 : Rat) / 100 ≤ valToRat v ∧ valToRat v ≤ (99999999999 : Rat) / 100) from by simp]
        rw [← valRangeIff v]
        simp
  · have hdotDs : '.' ∉ ds := by
      intro hm
      have := List.all_eq_true.mp hds _ hm
      simp at this
    have hne : a ++ '.' :: ds ≠ [] := by simp
    have hcont : (a ++ '.' :: ds).contains '.' = true :=
      List.elem_iff.mpr (List.mem_append.mpr (Or.inr (List.mem_cons_self _ _)))
    have hsplit : splitOnCh '.' (a ++ '.' :: ds) = [a, ds] := by
      rw [splitOnChPrefix a ds hdotA, splitOnChNoSep ds hdotDs]
    have hflA : a.filter (fun c => decide (c = '.')) = [] := by
      rw [List.filter_eq_nil_iff]
      intro x hx hc
      exact hdotA ((by simpa using hc : x = '.') ▸ hx)
    have hflDs : ds.filter (fun c => decide (c = '.')) = [] := by
      rw [List.filter_eq_nil_iff]
      intro x hx hc
      exact hdotDs ((by simpa using hc : x = '.') ▸ hx)
    have hfl : (a ++ '.' :: ds).filter (fun c => decide (c = '.')) = ['.'] := by
      rw [List.filter_append, hflA, List.filter_cons, if_pos (by simp), hflDs]
      rfl
    have hdw : (a ++ '.' :: ds).dropWhile (fun x => x != '.') = '.' :: ds :=
      dropWhileNePrefix a ds hdotA
    unfold isValidAmount specValidAmountC7
    rw [if_neg hne, hcont, hsplit, hfl, hdw]
    simp only [List.getD_cons_succ, List.getD_cons_zero, List.length_cons, List.length_nil,
      List.length_singleton, List.drop_succ_cons, List.drop_zero, Nat.le_refl, true_and,
      Bool.true_and, show (decide (0 + 1 + 1 > 2)) = false from by decide,
      show (decide (0 + 1 + 1 = 2)) = true from by decide, Bool.false_or]
    cases hd : (a ++ '.' :: ds).any Char.isDigit with
    | false => simp [hd]
    | true =>
      simp only [Bool.not_true, Bool.false_eq_true, if_false, true_and]
      by_cases hlen : ds.length ≤ 2
      · rw [show (decide (ds.length > 2)) = false from by simp; omega]
        simp only [Bool.false_eq_true, if_false, hlen, true_and]
        cases hp : amountToVal (a ++ '.' :: ds) with
        | none => simp
        | some v =>
          rw [show (∃ w, some v = some w ∧ (1 : Rat) / 100 ≤ valToRat w ∧
            valToRat w ≤ (99999999999 : Rat) / 100) ↔
            ((1 : Rat) / 100 ≤ valToRat v ∧ valToRat v ≤ (99999999999 : Rat) / 100) from by simp]
          rw [← valRangeIff v]
          simp
      · rw [show (decide (ds.length > 2)) = true from by simp; omega]
        simp [hlen]

theorem stripSepsAnyDigit (cand : Text) :
    (cand.filter (fun c => !(c = '-' || c = '_' || c = ' '))).any Char.isDigit =
      cand.any Char.isDigit := by
  rw [List.any_filter]
  apply anyCongr
  intro x _
  by_cases h1 : x = '-'
  · subst h1; decide
  · by_cases h2 : x = '_'
    · subst h2; decide
    · by_cases h3 : x = ' '
      · subst h3; decide
      · simp [h1, h2, h3]

/-- C4 counterexample: the claim requires length at least 3 after stripping
the separators and a strict full match of the character class, but the
source checks the raw length before stripping and its `$` anchor tolerates
a trailing newline: `A1-` (stripped length 2) and the newline-terminated
`AB1` are both accepted by the code and rejected by the claim predicate. -/
theorem claim_C4_counterexample :
    isValidInvoiceNumber (tx "A1-") = true ∧ claimValidC4 (tx "A1-") = false ∧
    isValidInvoiceNumber (tx "AB1\n") = true ∧ claimValidC4 (tx "AB1\n") = false := by
  decide

/-- C4 as amended: a candidate is accepted iff its raw length is at least
3, it contains a digit, it matches `[A-Za-z0-9_-]{3,20}` in full in the
sense of the `re.match` anchor (one trailing newline tolerated), it is not
a stopword, and it mixes letters and digits or is purely numeric of length
at least 4; `INVOICE` is rejected, `INV-2024-001` is accepted and
returned upper-cased. -/
theorem claim_C4_amended :
    (∀ cand : Text, isValidInvoiceNumber cand = amendedValidC4 cand) ∧
    isValidInvoiceNumber (tx "INVOICE") = false ∧
    isValidInvoiceNumber (tx "INV-2024-001") = true ∧
    extractFromLine (tx "Invoice #: inv-2024-001") = tx "INV-2024-001" := by
  refine ⟨?_, by decide, by decide, by decide⟩
  intro cand
  unfold isValidInvoiceNumber amendedValidC4
  have hdig := stripSepsAnyDigit cand
  by_cases h0 : cand = [] ∨ cand.length < 3
  · rw [if_pos (by rcases h0 with h | h <;> simp [h])]
    have : decide (3 ≤ cand.length) = false := by
      rcases h0 with h | h
      · subst h; decide
      · simp; omega
    rw [this]
    simp
  · push_neg at h0
    rw [if_neg (by simp [h0.1]; omega)]
    rw [show decide (3 ≤ cand.length) = true from by simp; omega]
    simp only [hdig, Bool.true_and]
    cases hd : cand.any Char.isDigit with
    | false => simp
    | true =>
      simp only [Bool.not_true, Bool.true_and, if_false]
      cases hcl : matchInvFullClass cand with
      | false => simp
      | true =>
        simp only [Bool.not_true, Bool.true_and, if_false]
        cases hst : invoiceStopwords.contains (lowerText cand) with
        | false =>
          simp only [Bool.not_false, Bool.and_true, if_true]
          cases hmix : cand.any Char.isAlpha with
          | true => simp
          | false =>
            simp only [Bool.false_and, Bool.false_or]
            cases hpure : cand.all Char.isDigit <;> cases hlen : decide (4 ≤ cand.length) <;> simp
        | true => simp

/-- Witness for C7: the hypothesis of the universal part is satisfiable
(`123.45` is a cleaned amount string) and the equivalence holds there. -/
theorem claim_C7_witness :
    isValidAmount (tx "123.45") = true ↔ specValidAmountC7 (tx "123.45") :=
  claim_C7.1 (tx "123.45")
    ⟨tx "123", tx ".45", by decide, by decide, by decide,
      Or.inr ⟨tx "45", by decide, by decide⟩⟩

/-- C8: the excerpt is the whitespace-collapsed text unchanged when that
is at most 500 characters long; for a longer collapsed text it is the
first 500 collapsed characters followed by `...`, hence 503 characters
ending in `...`. -/
theorem claim_C8 (text : Text) :
    ((joinWith (tx " ") (splitWsTokens text)).length ≤ 500 →
      createTextExcerpt text = joinWith (tx " ") (splitWsTokens text)) ∧
    (500 < (joinWith (tx " ") (splitWsTokens text)).length →
      createTextExcerpt text = (joinWith (tx " ") (splitWsTokens text)).take 500 ++ tx "..." ∧
      (createTextExcerpt text).length = 503 ∧
      ∃ p, createTextExcerpt text = p ++ tx "...") := by
  constructor
  · intro h
    unfold createTextExcerpt
    rw [if_pos h]
  · intro h
    unfold createTextExcerpt
    rw [if_neg (by omega)]
    refine ⟨rfl, ?_, ⟨_, rfl⟩⟩
    rw [List.length_append, List.length_take]
    have : min 500 (joinWith (tx " ") (splitWsTokens text)).length = 500 := by omega
    rw [this]
    rfl

/-- Witness for C8: both branches at concrete inputs, a short text and a
600 visible character text whose excerpt has 503 characters. -/
theorem claim_C8_witness :
    createTextExcerpt (tx "a b") = joinWith (tx " ") (splitWsTokens (tx "a b")) ∧
    (createTextExcerpt (List.replicate 600 'a')).length = 503 := by
  refine ⟨(claim_C8 (tx "a b")).1 (by decide), ?_⟩
  have h := (claim_C8 (List.replicate 600 'a')).2 (by decide)
  exact h.2.1

theorem formatAmount_head (cl : Text) : ∃ r, formatAmount cl = '$' :: r := by
  unfold formatAmount
  cases amountToVal cl with
  | some v => exact ⟨_, rfl⟩
  | none => exact ⟨_, rfl⟩

theorem findAllAmounts_foldl_mem (P : Text → Prop)
    (hP : ∀ cl, P (formatAmount cl)) :
    ∀ (caps acc : List Text), (∀ x ∈ acc, P x) →
      ∀ x ∈ caps.foldl (fun acc cap =>
        match cleanAmount cap with
        | some cl =>
          if isValidAmount cl then
            let f := formatAmount cl
            if acc.contains f then acc else acc ++ [f]
          else acc
        | none => acc) acc, P x := by
  intro caps
  induction caps with
  | nil => intro acc hacc x hx; exact hacc x hx
  | cons cap caps ih =>
    intro acc hacc x hx
    simp only [List.foldl_cons] at hx
    refine ih _ ?_ x hx
    cases hcl : cleanAmount cap with
    | none => simpa [hcl] using hacc
    | some cl =>
      simp only [hcl]
      by_cases hv : isValidAmount cl = true
      · rw [if_pos hv]
        by_cases hc : acc.contains (formatAmount cl) = true
        · rw [if_pos hc]
          exact hacc
        · rw [if_neg hc]
          intro y hy
          rcases List.mem_append.mp hy with hy | hy
          · exact hacc y hy
          · simp at hy
            exact hy ▸ hP cl
      · rw [if_neg hv]
        exact hacc

/-- Every member of the deduplicated amount list starts with a dollar
sign, hence is non-empty. -/
theorem mem_findAllAmounts_dollar (text : Text) (x : Text)
    (hx : x ∈ findAllAmounts text) : ∃ r, x = '$' :: r := by
  unfold findAllAmounts at hx
  rw [mem_stableSortByKey] at hx
  exact findAllAmounts_foldl_mem (fun y => ∃ r, y = '$' :: r)
    (fun cl => formatAmount_head cl) _ [] (by simp) x hx

theorem firstFormattedIn_mem {amts caps : List Text} {f : Text}
    (h : firstFormattedIn amts caps = some f) : f ∈ amts := by
  obtain ⟨cap, _, hcap⟩ := pickFirst_eq_some h
  cases hcl : cleanAmount cap with
  | none => simp [hcl] at hcap
  | some cl =>
    simp only [hcl] at hcap
    by_cases hc : amts.contains (formatAmount cl) = true
    · rw [if_pos hc] at hcap
      cases hcap
      exact List.elem_iff.mp hc
    · rw [if_neg hc] at hcap
      cases hcap

theorem totalKeywordScan_mem {kws : List Text} {lower : Text} {amts : List Text} {f : Text}
    (h : totalKeywordScan kws lower amts = some f) : f ∈ amts := by
  obtain ⟨kw, _, hkw⟩ := pickFirst_eq_some h
  cases h1 : firstFormattedIn amts (scanAll (kwAfterTry kw) lower.length lower) with
  | some g =>
    rw [h1] at hkw
    cases hkw
    exact firstFormattedIn_mem h1
  | none =>
    rw [h1] at hkw
    exact firstFormattedIn_mem hkw

/-- For a non-empty amount list, `_find_total_amount` is the method 1
keyword scan when it succeeds, else the largest amount (methods 2 and 3
coincide: both return the head of the descending list). -/
theorem findTotalAmountWith_cons (kws : List Text) (text : Text) (a0 : Text) (rest : List Text) :
    findTotalAmountWith kws text (a0 :: rest) =
      match totalKeywordScan kws (lowerText text) (a0 :: rest) with
      | some f => f
      | none => a0 := by
  simp only [findTotalAmountWith]
  cases hscan : totalKeywordScan kws (lowerText text) (a0 :: rest) with
  | some f => rfl
  | none => exact ite_self a0

/-- C10: the total is empty iff no amount in the text validates; when some
amount validates the total is non-empty and a member of the deduplicated
formatted amount list; and the other-amounts list (whose comma join is the
second component) never contains the chosen total. -/
theorem claim_C10 (text : Text) :
    ((extractAmounts text).1 = [] ↔ findAllAmounts text = []) ∧
    (findAllAmounts text ≠ [] →
      (extractAmounts text).1 ≠ [] ∧ (extractAmounts text).1 ∈ findAllAmounts text) ∧
    (extractAmounts text).1 ∉
      (findAllAmounts text).filter (fun amt => amt != (extractAmounts text).1) ∧
    (extractAmounts text).2 =
      (if (findAllAmounts text).filter (fun amt => amt != (extractAmounts text).1) = [] then []
       else joinWith (tx ", ")
        ((findAllAmounts text).filter (fun amt => amt != (extractAmounts text).1))) := by
  have htot : (extractAmounts text).1 =
      findTotalAmountWith totalKeywords text (findAllAmounts text) := rfl
  have hnotmem : ∀ l : List Text, (extractAmounts text).1 ∉
      l.filter (fun amt => amt != (extractAmounts text).1) := by
    intro l hmem
    have := (List.mem_filter.mp hmem).2
    simp at this
  refine ⟨?_, ?_, hnotmem _, rfl⟩
  · cases hA : findAllAmounts text with
    | nil =>
      rw [htot, hA]
      unfold findTotalAmountWith
      simp
    | cons a0 rest =>
      constructor
      · intro hnil
        rw [htot, hA, findTotalAmountWith_cons] at hnil
        exfalso
        cases hscan : totalKeywordScan totalKeywords (lowerText text) (a0 :: rest) with
        | some f =>
          rw [hscan] at hnil
          have hf : f ∈ a0 :: rest := totalKeywordScan_mem hscan
          obtain ⟨r, hr⟩ := mem_findAllAmounts_dollar text f (hA ▸ hf)
          simp [hr] at hnil
        | none =>
          rw [hscan] at hnil
          obtain ⟨r, hr⟩ := mem_findAllAmounts_dollar text a0 (hA ▸ List.mem_cons_self a0 rest)
          simp [hr] at hnil
      · intro h; cases h
  · intro hne
    have hmem : (extractAmounts text).1 ∈ findAllAmounts text := by
      rw [htot]
      cases hA : findAllAmounts text with
      | nil => exact absurd hA hne
      | cons a0 rest =>
        rw [findTotalAmountWith_cons]
        cases hscan : totalKeywordScan totalKeywords (lowerText text) (a0 :: rest) with
        | some f => exact totalKeywordScan_mem hscan
        | none => exact List.mem_cons_self a0 rest
    obtain ⟨r, hr⟩ := mem_findAllAmounts_dollar text _ hmem
    exact ⟨by simp [hr], hmem⟩

/-- Witness for C10: on a text with one validated amount the total is the
non-empty member `$5.00`. -/
theorem claim_C10_witness :
    (extractAmounts (tx "Total: $5.00")).1 ≠ [] ∧
    (extractAmounts (tx "Total: $5.00")).1 ∈ findAllAmounts (tx "Total: $5.00") :=
  (claim_C10 (tx "Total: $5.00")).2.1 (by decide)

theorem pickFirst_none {f : α → Option β} :
    ∀ l : List α, (∀ x, f x = none) → pickFirst f l = none := by
  intro l hf
  induction l with
  | nil => rfl
  | cons x xs ih =>
    simp only [pickFirst, hf x]
    exact ih

theorem firstFormattedIn_nil : ∀ caps : List Text, firstFormattedIn [] caps = none := by
  intro caps
  unfold firstFormattedIn
  apply pickFirst_none
  intro cap
  cases cleanAmount cap with
  | none => rfl
  | some cl => rfl

theorem totalKeywordScan_nil (kws : List Text) (lower : Text) :
    totalKeywordScan kws lower [] = none := by
  unfold totalKeywordScan
  apply pickFirst_none
  intro kw
  rw [firstFormattedIn_nil, firstFormattedIn_nil]

/-- In a list sorted descending by value, every member is at most the
head. -/
theorem sortDescHeadGe (k : α → Nat) (l : List α) (d : α) :
    ∀ x ∈ stableSortByKey (fun a => -(k a : Int)) l,
      k x ≤ k ((stableSortByKey (fun a => -(k a : Int)) l).headD d) := by
  intro x hx
  have hl : l ≠ [] := by
    intro h
    subst h
    simp [stableSortByKey] at hx
  obtain ⟨l₁, l₂, -, -, hall⟩ := stableSortByKey_head_first (fun a => -(k a : Int)) d l hl
  have hx' : x ∈ l := (mem_stableSortByKey _ x l).mp hx
  have h := hall x hx'
  have h2 : (k x : Int) ≤ k ((stableSortByKey (fun a => -(k a : Int)) l).headD d) := by omega
  exact_mod_cast h2

/-- C1 counterexample: on the text of the claim the keyword `total`
matches inside `Subtotal` (the keyword patterns carry no word boundary),
so the selected total is `$100.00`, not `$120.00`, and `other_amounts` is
`$120.00`, which does not contain `$100.00`. -/
theorem claim_C1_counterexample :
    extractAmounts (tx "Subtotal: $100.00 ... Total: $120.00") =
      (tx "$100.00", tx "$120.00") ∧
    (extractAmounts (tx "Subtotal: $100.00 ... Total: $120.00")).1 ≠ tx "$120.00" ∧
    containsSub (tx "$100.00")
      ((extractAmounts (tx "Subtotal: $100.00 ... Total: $120.00")).2) = false := by
  refine ⟨by decide, by decide, by decide⟩

/-- C1 as amended: the total is determined by scanning the
total-indicating keywords in priority order, looking for an amount
directly after or before each (substring) occurrence and returning the
first such amount present in the deduplicated set, with the largest
validated amount as fallback (the redundant methods 2 and 3 of the source
both return the largest amount, which the descending order makes the head
of the list); on the claim text the substring match of `total` inside
`Subtotal` selects `$100.00`, with `$120.00` among the other amounts. -/
theorem claim_C1_amended :
    (∀ (text : Text) (amts : List Text), findTotalAmount text amts = findTotalSpecC1 text amts) ∧
    (∀ text : Text, ∀ x ∈ findAllAmounts text,
      amountValKey x ≤ amountValKey ((findAllAmounts text).headD [])) ∧
    extractAmounts (tx "Subtotal: $100.00 ... Total: $120.00") =
      (tx "$100.00", tx "$120.00") := by
  refine ⟨?_, ?_, by decide⟩
  · intro text amts
    cases amts with
    | nil =>
      unfold findTotalAmount findTotalAmountWith findTotalSpecC1
      rw [totalKeywordScan_nil]
      rfl
    | cons a0 rest =>
      unfold findTotalAmount findTotalSpecC1
      rw [findTotalAmountWith_cons]
      cases totalKeywordScan totalKeywords (lowerText text) (a0 :: rest) with
      | some f => rfl
      | none => rfl
  · intro text x hx
    exact sortDescHeadGe amountValKey _ [] x hx

/-- Witness for C1: the hypothesis of the largest-amount part is
satisfiable and the bound holds on a two amount text. -/
theorem claim_C1_witness :
    amountValKey (tx "$5.00") ≤
      amountValKey ((findAllAmounts (tx "pay $5.00 and $7.00")).headD []) :=
  claim_C1_amended.2.1 (tx "pay $5.00 and $7.00") (tx "$5.00") (by decide)

theorem isValidInvoiceNumber_ne_nil {cand : Text}
    (h : isValidInvoiceNumber cand = true) : cand ≠ [] := by
  intro hc
  subst hc
  exact absurd h (by decide)

theorem validUpperPick_ne_nil {toks : List Text} {r : Text}
    (h : pickFirst (fun tok =>
      if isValidInvoiceNumber tok then some (upperText tok) else none) toks = some r) :
    r ≠ [] := by
  obtain ⟨tok, _, htok⟩ := pickFirst_eq_some h
  by_cases hv : isValidInvoiceNumber tok = true
  · rw [if_pos hv] at htok
    cases htok
    have := isValidInvoiceNumber_ne_nil hv
    simp [upperText]
    intro hc
    exact this hc
  · rw [if_neg hv] at htok
    cases htok

theorem lineAnchoredScan_ne_nil {ll : Text} {r : Text}
    (h : lineAnchoredScan ll = some r) : r ≠ [] := by
  obtain ⟨kw, _, hkw⟩ := pickFirst_eq_some h
  cases hs : searchFirst (kwAnchoredTry kw) ll.length ll with
  | some cand =>
    rw [hs] at hkw
    dsimp only at hkw
    by_cases hv : isValidInvoiceNumber cand = true
    · rw [if_pos hv] at hkw
      cases hkw
      have := isValidInvoiceNumber_ne_nil hv
      simp [upperText]
      intro hc
      exact this hc
    · rw [if_neg hv] at hkw
      cases hkw
  | none =>
    rw [hs] at hkw
    cases hkw

theorem extractFromLine_eq (line : Text) :
    extractFromLine line = (lineResultSpecC5 line).getD [] := by
  simp only [extractFromLine, lineResultSpecC5]
  cases h1 : lineAnchoredScan (lowerText line) with
  | some r => rfl
  | none =>
    by_cases h2 : containsSub (tx "invoice") (lowerText line) = true
    · rw [if_pos h2, if_pos h2]
      cases hp : pickFirst (fun tok =>
          if isValidInvoiceNumber tok then some (upperText tok) else none)
          (standaloneTokens line) with
      | some r => rfl
      | none => rfl
    · rw [if_neg h2, if_neg h2]
      rfl

theorem lineResultSpecC5_ne_nil {line : Text} {r : Text}
    (h : lineResultSpecC5 line = some r) : r ≠ [] := by
  unfold lineResultSpecC5 at h
  cases h1 : lineAnchoredScan (lowerText line) with
  | some g =>
    rw [h1] at h
    cases h
    exact lineAnchoredScan_ne_nil h1
  | none =>
    rw [h1] at h
    by_cases h2 : containsSub (tx "invoice") (lowerText line) = true
    · rw [if_pos h2] at h
      exact validUpperPick_ne_nil h
    · rw [if_neg h2] at h
      cases h

theorem invoiceLineLoop_eq :
    ∀ lines : List Text, invoiceLineLoop lines = pickFirst lineGuardSpecC5 lines := by
  intro lines
  induction lines with
  | nil => rfl
  | cons line rest ih =>
    simp only [invoiceLineLoop, pickFirst, lineGuardSpecC5]
    by_cases hg : (containsSub (tx "invoice") (pyStrip (lowerText line)) ||
        containsSub (tx "inv") (pyStrip (lowerText line)) ||
        containsSub (tx "bill") (pyStrip (lowerText line))) = true
    · rw [if_pos hg, if_pos hg]
      cases hr : lineResultSpecC5 line with
      | some r =>
        have hrr : extractFromLine line = r := by rw [extractFromLine_eq, hr]; rfl
        rw [hrr, if_pos (lineResultSpecC5_ne_nil hr)]
      | none =>
        have hrr : extractFromLine line = [] := by rw [extractFromLine_eq, hr]; rfl
        rw [hrr, if_neg (by simp)]
        exact ih
    · rw [if_neg hg, if_neg hg]
      exact ih

/-- C5 counterexample: the second line `Invoice #: XY-456` yields a valid
keyword-anchored match, yet the extractor returns the standalone token
`ABC-123` of the earlier line, because the standalone fallback runs per
line rather than only after every line has failed the anchored
patterns. -/
theorem claim_C5_counterexample :
    lineAnchoredScan (lowerText (tx "Invoice #: XY-456")) = some (tx "XY-456") ∧
    extractInvoiceNumber (tx "Invoice list ABC-123\nInvoice #: XY-456") = tx "ABC-123" ∧
    tx "ABC-123" ≠ tx "XY-456" := by
  refine ⟨by decide, by decide, by decide⟩

/-- C5 as amended: the extractor returns, over the keyword-bearing lines
in top-to-bottom order, the first non-empty per-line result, where each
line is processed in full — the keyword-anchored patterns first, then, on
a line containing `invoice`, the standalone token fallback of that same
line — and the full-text fallback runs only when every line yields
nothing.  Hence an earlier line standalone token takes precedence over a
later line keyword-anchored match. -/
theorem claim_C5_amended (text : Text) :
    extractInvoiceNumber text =
      match pickFirst lineGuardSpecC5 (splitOnCh '\n' text) with
      | some r => r
      | none => invoiceFullTextScan text := by
  unfold extractInvoiceNumber
  rw [invoiceLineLoop_eq]

theorem dedupGo_spec :
    ∀ (l : List DateInfo) (seen : List Text),
      dedupGo seen l = dedupFirstSpec (l.filter (fun d => !seen.contains d.formatted)) := by
  intro l
  induction l with
  | nil => intro seen; simp [dedupGo, dedupFirstSpec]
  | cons d ds ih =>
    intro seen
    by_cases hc : seen.contains d.formatted = true
    · simp only [dedupGo, hc, if_true, List.filter_cons, Bool.not_true]
      rw [if_neg (by simp)]
      exact ih seen
    · have hcf : seen.contains d.formatted = false := by
        cases h : seen.contains d.formatted
        · rfl
        · exact absurd h hc
      simp only [dedupGo, hcf, Bool.false_eq_true, if_false, List.filter_cons, Bool.not_false]
      rw [if_pos (by simp)]
      unfold dedupFirstSpec
      rw [ih (d.formatted :: seen)]
      congr 1
      rw [List.filter_filter]
      apply congrArg
      apply List.filter_congr
      intro e _
      show (!List.contains (d.formatted :: seen) e.formatted) =
        (decide (e.formatted ≠ d.formatted) && !seen.contains e.formatted)
      have hcons : List.contains (d.formatted :: seen) e.formatted =
          ((e.formatted == d.formatted) || seen.contains e.formatted) := rfl
      rw [hcons, Bool.not_or]
      by_cases he : e.formatted = d.formatted
      · simp [he]
      · simp [he]

theorem dedupFirstSpec_sublist :
    ∀ (n : Nat) (l : List DateInfo), l.length ≤ n → (dedupFirstSpec l).Sublist l := by
  have h0 : dedupFirstSpec [] = [] := by simp [dedupFirstSpec]
  intro n
  induction n with
  | zero =>
    intro l hl
    rw [List.length_eq_zero.mp (Nat.le_zero.mp hl), h0]
  | succ n ih =>
    intro l hl
    cases l with
    | nil => rw [h0]
    | cons d ds =>
      unfold dedupFirstSpec
      apply List.Sublist.cons₂
      have h1 : (ds.filter (fun e => decide (e.formatted ≠ d.formatted))).length ≤ n := by
        have := List.length_filter_le (fun e => decide (e.formatted ≠ d.formatted)) ds
        simp only [List.length_cons] at hl
        omega
      exact (ih _ h1).trans (List.filter_sublist ds)

/-- C3: `extract_dates` stably sorts the candidates by label priority,
keeps the first occurrence of each distinct formatted date, truncates to
3; its output stays sorted by priority and its first element is the
primary date of the record columns. -/
theorem claim_C3 (text : Text) :
    extractDates text =
      (dedupFirstSpec (stableSortByKey (fun d => prioOf d.label)
        (collectDateCandidates text))).take 3 ∧
    (extractDates text).Pairwise (fun a b => prioOf a.label ≤ prioOf b.label) ∧
    (formatDates (extractDates text)).headD ([], RecVal.s []) =
      (tx "date_primary_mmddyyyy",
        RecVal.s (match extractDates text with
          | [] => []
          | d :: _ => d.formatted)) := by
  have hmain : extractDates text =
      (dedupFirstSpec (stableSortByKey (fun d => prioOf d.label)
        (collectDateCandidates text))).take 3 := by
    unfold extractDates removeDuplicates
    rw [dedupGo_spec]
    congr 2
    have : ∀ d ∈ stableSortByKey (fun d => prioOf d.label) (collectDateCandidates text),
        (!List.contains ([] : List Text) d.formatted) = true := fun d _ => rfl
    rw [List.filter_congr this]
    exact List.filter_true _
  have hsorted : (extractDates text).Pairwise (fun a b => prioOf a.label ≤ prioOf b.label) := by
    rw [hmain]
    have h1 := pairwise_stableSortByKey (fun d => prioOf d.label) (collectDateCandidates text)
    have h2 := dedupFirstSpec_sublist
      (stableSortByKey (fun d => prioOf d.label) (collectDateCandidates text)).length _
      (Nat.le_refl _)
    exact List.Pairwise.sublist ((List.take_sublist 3 _).trans h2) h1
  refine ⟨hmain, hsorted, ?_⟩
  have hid := stableSortByKey_sorted_id (fun d => prioOf d.label) (extractDates text) hsorted
  simp only [formatDates, hid]
  cases extractDates text with
  | nil => simp
  | cons d rest => simp

/-- C2: whatever the read result and whether or not the extraction chain
raises, the record carries exactly the fixed 18 fields in order; when an
exception with description `msg` is raised the record is the empty result:
every field other than `filename` and `errors` is the empty string or the
zero count, and `errors` holds `msg` (non-empty whenever the description
is). -/
theorem claim_C2 (filename : Text) (readResult : Option Text) (exn : Option Text) :
    recordKeys (processFile filename readResult exn) = theEighteenFields ∧
    (∀ text msg, readResult = some text → text ≠ [] → exn = some msg →
      processFile filename readResult exn = createEmptyResult filename msg ∧
      (∀ kv ∈ createEmptyResult filename msg,
        kv.1 ≠ tx "filename" → kv.1 ≠ tx "errors" →
          kv.2 = RecVal.s [] ∨ kv.2 = RecVal.n 0) ∧
      (tx "errors", RecVal.s msg) ∈ createEmptyResult filename msg) := by
  constructor
  · cases readResult with
    | none => rfl
    | some text =>
      by_cases ht : text = []
      · unfold processFile processFileWith
        dsimp only
        rw [if_pos ht]
        rfl
      · unfold processFile processFileWith
        dsimp only
        rw [if_neg ht]
        cases exn with
        | none => rfl
        | some msg => rfl
  · intro text msg h1 h2 h3
    subst h1
    subst h3
    refine ⟨?_, ?_, ?_⟩
    · unfold processFile processFileWith
      dsimp only
      rw [if_neg h2]
    · intro kv hkv
      simp only [createEmptyResult, List.mem_cons, List.not_mem_nil, or_false] at hkv
      rcases hkv with rfl | rfl | rfl | rfl | rfl | rfl | rfl | rfl | rfl | rfl | rfl | rfl |
        rfl | rfl | rfl | rfl | rfl | rfl <;>
        intro hk1 hk2 <;>
        first
          | exact absurd rfl hk1
          | exact absurd rfl hk2
          | exact Or.inl rfl
          | exact Or.inr rfl
    · simp [createEmptyResult]

/-- Witness for C2: the record shape and the exception path at concrete
inputs. -/
theorem claim_C2_witness :
    recordKeys (processFile (tx "f.txt") (some (tx "hello")) (some (tx "boom"))) =
      theEighteenFields ∧
    processFile (tx "f.txt") (some (tx "hello")) (some (tx "boom")) =
      createEmptyResult (tx "f.txt") (tx "boom") :=
  ⟨(claim_C2 (tx "f.txt") (some (tx "hello")) (some (tx "boom"))).1,
   ((claim_C2 (tx "f.txt") (some (tx "hello")) (some (tx "boom"))).2
      (tx "hello") (tx "boom") rfl (by decide) rfl).1⟩

/-- C9: the extractor state is returned unchanged by a call, so running
the full extraction twice on the identical text yields the identical
record and state (two-run equality). -/
theorem claim_C9 (st : PipelineState) (filename : Text) (readResult exn : Option Text) :
    (processFileSt st filename readResult exn).2 = st ∧
    (processFileSt (processFileSt st filename readResult exn).2 filename readResult exn).1 =
      (processFileSt st filename readResult exn).1 ∧
    (processFileSt (processFileSt st filename readResult exn).2 filename readResult exn).2 =
      (processFileSt st filename readResult exn).2 :=
  ⟨rfl, rfl, rfl⟩


/-- The first character exists and is not whitespace. -/
def headNotWs (w : Text) : Bool :=
  match w with
  | c :: _ => !isWsCh c
  | [] => false

/-- The last character exists and is not whitespace. -/
def lastNotWs (w : Text) : Bool :=
  match w.getLast? with
  | some c => !isWsCh c
  | none => false

theorem isWsCh_cases {c : Char} (h : isWsCh c = true) :
    c = ' ' ∨ c = '\t' ∨ c = '\n' ∨ c = '\r' ∨ c = '\x0b' ∨ c = '\x0c' := by
  simpa [isWsCh, or_assoc] using h

theorem notWs_of_alpha (c : Char) (h : c.isAlpha = true) : isWsCh c = false := by
  cases hw : isWsCh c with
  | false => rfl
  | true =>
    exfalso
    rcases isWsCh_cases hw with rfl | rfl | rfl | rfl | rfl | rfl <;>
      exact absurd h (by decide)

theorem wsToLower (c : Char) (h : isWsCh c = true) : Char.toLower c = c := by
  rcases isWsCh_cases h with rfl | rfl | rfl | rfl | rfl | rfl <;> decide

theorem scanPrev_mem {m : Option Char → Text → Option (Text × Text)} :
    ∀ (fuel : Nat) (prev : Option Char) (t cap : Text), cap ∈ scanPrev m fuel prev t →
      ∃ p u rest, m p u = some (cap, rest) := by
  intro fuel
  induction fuel with
  | zero => intro prev t cap h; simp [scanPrev] at h
  | succ f ih =>
    intro prev t cap h
    cases t with
    | nil => simp [scanPrev] at h
    | cons c cs =>
      simp only [scanPrev] at h
      cases hm : m prev (c :: cs) with
      | some pr =>
        rw [hm] at h
        dsimp only at h
        rcases List.mem_cons.mp h with h | h
        · exact ⟨prev, c :: cs, pr.2, by rw [hm, h]⟩
        · exact ih _ _ cap h
      | none =>
        rw [hm] at h
        exact ih _ _ cap h

theorem headNotWs_append {a : Text} (b : Text) (h : headNotWs a = true) :
    headNotWs (a ++ b) = true := by
  cases a with
  | nil => exact absurd h (by decide)
  | cons c cs => exact h

theorem lastNotWs_append (a : Text) {b : Text} (hb : b ≠ []) :
    lastNotWs (a ++ b) = lastNotWs b := by
  unfold lastNotWs
  rw [List.getLast?_append_of_ne_nil a hb]

theorem headNotWs_of_all {w : Text} (hne : w ≠ []) (hall : ∀ x ∈ w, isWsCh x = false) :
    headNotWs w = true := by
  cases w with
  | nil => exact absurd rfl hne
  | cons c cs => simp [headNotWs, hall c (List.mem_cons_self c cs)]

theorem lastNotWs_of_all {w : Text} (hne : w ≠ []) (hall : ∀ x ∈ w, isWsCh x = false) :
    lastNotWs w = true := by
  cases hgl : w.getLast? with
  | none => exact absurd (List.getLast?_eq_none_iff.mp hgl) hne
  | some x => simp [lastNotWs, hgl, hall x (List.mem_of_mem_getLast? hgl)]

theorem grabTCWord_shape {t w r : Text} (h : grabTCWord t = some (w, r)) :
    w ≠ [] ∧ ∀ x ∈ w, isWsCh x = false := by
  cases t with
  | nil => exact absurd h (by simp [grabTCWord])
  | cons c cs =>
    simp only [grabTCWord] at h
    by_cases hu : c.isUpper = true
    · rw [if_pos hu] at h
      by_cases hls : cs.takeWhile Char.isLower = []
      · rw [if_pos hls] at h; cases h
      · rw [if_neg hls] at h
        simp only [Option.some.injEq, Prod.mk.injEq] at h
        obtain ⟨hw, -⟩ := h
        rw [← hw]
        refine ⟨by simp, ?_⟩
        intro x hx
        rcases List.mem_cons.mp hx with rfl | hx
        · exact notWs_of_alpha x (by simp [Char.isAlpha, hu])
        · exact notWs_of_alpha x (by simp [Char.isAlpha, List.mem_takeWhile_imp hx])
    · rw [if_neg hu] at h; cases h

theorem grabCapsRun_shape {t w r : Text} (h : grabCapsRun t = some (w, r)) :
    w ≠ [] ∧ ∀ x ∈ w, isWsCh x = false := by
  simp only [grabCapsRun] at h
  by_cases hr : (t.takeWhile Char.isUpper).length < 2
  · rw [if_pos hr] at h; cases h
  · rw [if_neg hr] at h
    simp only [Option.some.injEq, Prod.mk.injEq] at h
    obtain ⟨hw, -⟩ := h
    rw [← hw]
    constructor
    · intro hc
      rw [hc] at hr
      simp at hr
    · intro x hx
      exact notWs_of_alpha x (by simp [Char.isAlpha, List.mem_takeWhile_imp hx])

theorem phraseStates_shape {grab : Text → Option (Text × Text)}
    (hgrab : ∀ t w r, grab t = some (w, r) → w ≠ [] ∧ ∀ x ∈ w, isWsCh x = false) :
    ∀ (fuel : Nat) (ph rest : Text) (lim : Nat),
      headNotWs ph = true → lastNotWs ph = true →
      ∀ st ∈ phraseStatesAux grab fuel ph rest lim,
        headNotWs st.1 = true ∧ lastNotWs st.1 = true := by
  intro fuel
  induction fuel with
  | zero =>
    intro ph rest lim h1 h2 st hst
    simp [phraseStatesAux] at hst
    rw [hst]
    exact ⟨h1, h2⟩
  | succ f ih =>
    intro ph rest lim h1 h2 st hst
    cases lim with
    | zero =>
      simp [phraseStatesAux] at hst
      rw [hst]
      exact ⟨h1, h2⟩
    | succ l =>
      simp only [phraseStatesAux] at hst
      by_cases hws : rest.takeWhile isWsCh = []
      · rw [if_pos hws] at hst
        simp at hst
        rw [hst]
        exact ⟨h1, h2⟩
      · rw [if_neg hws] at hst
        cases hg : grab (rest.drop (rest.takeWhile isWsCh).length) with
        | none =>
          rw [hg] at hst
          simp at hst
          rw [hst]
          exact ⟨h1, h2⟩
        | some wr =>
          rw [hg] at hst
          dsimp only at hst
          rcases List.mem_cons.mp hst with rfl | hst'
          · exact ⟨h1, h2⟩
          · obtain ⟨hne, hall⟩ := hgrab _ _ _ hg
            refine ih _ _ _ ?_ ?_ st hst'
            · exact headNotWs_append _ (headNotWs_append _ h1)
            · rw [List.append_assoc, lastNotWs_append ph (by simp [hne]),
                lastNotWs_append _ hne]
              exact lastNotWs_of_all hne hall

theorem pickGreedyState_mem {states : List (Text × Text)} {st : Text × Text}
    (h : pickGreedyState states = some st) : st ∈ states := by
  unfold pickGreedyState at h
  exact (List.mem_filter.mp (List.mem_of_mem_getLast? h)).1

theorem phraseTry_shape {grab : Text → Option (Text × Text)}
    (hgrab : ∀ t w r, grab t = some (w, r) → w ≠ [] ∧ ∀ x ∈ w, isWsCh x = false)
    {minOne : Bool} {lim : Nat} {prev : Option Char} {t cap rest : Text}
    (h : phraseTry grab minOne lim prev t = some (cap, rest)) :
    headNotWs cap = true ∧ lastNotWs cap = true := by
  cases t with
  | nil => exact absurd h (by simp [phraseTry])
  | cons c cs =>
    simp only [phraseTry] at h
    cases hu : c.isUpper with
    | false => rw [hu] at h; simp at h
    | true =>
      rw [hu] at h
      simp only [Bool.not_true] at h
      rw [if_neg (by decide : ¬((false : Bool) = true))] at h
      cases hb : atBoundary prev c with
      | false => rw [hb] at h; simp at h
      | true =>
        rw [hb] at h
        simp only [Bool.not_true] at h
        rw [if_neg (by decide : ¬((false : Bool) = true))] at h
        cases hg : grab (c :: cs) with
        | none => rw [hg] at h; cases h
        | some wr =>
          rw [hg] at h
          dsimp only at h
          obtain ⟨hne, hall⟩ := hgrab _ _ _ hg
          have hmem : (cap, rest) ∈ phraseStatesAux grab wr.2.length wr.1 wr.2 lim := by
            have h2 := pickGreedyState_mem h
            cases minOne with
            | true => exact List.mem_of_mem_tail (by simpa using h2)
            | false => simpa using h2
          exact phraseStates_shape hgrab wr.2.length wr.1 wr.2 lim
            (headNotWs_of_all hne hall) (lastNotWs_of_all hne hall) (cap, rest) hmem

theorem startsWithT_take : ∀ (p u : Text), startsWithT p u = true → u.take p.length = p
  | [], _, _ => by simp
  | _ :: _, [], h => by cases h
  | c :: ps, d :: us, h => by
    simp only [startsWithT, Bool.and_eq_true, decide_eq_true_eq] at h
    obtain ⟨h1, h2⟩ := h
    simp [h1, startsWithT_take ps us h2]

theorem startsWithCI_eq {alt r : Text} (h : startsWithCI alt r = true) :
    lowerText (r.take alt.length) = alt := by
  unfold startsWithCI at h
  have hlen : (lowerText (r.take alt.length)).length ≤ alt.length := by
    simp [lowerText]
  have ht := startsWithT_take alt (lowerText (r.take alt.length)) h
  rw [List.take_of_length_le hlen] at ht
  exact ht

theorem suffixEndAux_spec {t : Text} {alts : List Text} :
    ∀ (j0 len : Nat), suffixEndAux t alts j0 = some len →
      ∃ j alt, alt ∈ alts ∧ len = 1 + (j + 1) + alt.length ∧
        startsWithCI alt (t.drop (1 + (j + 1))) = true := by
  intro j0
  induction j0 with
  | zero => intro len h; cases h
  | succ j ih =>
    intro len h
    simp only [suffixEndAux] at h
    cases hp : pickFirst (fun alt =>
        let r := t.drop (1 + (j + 1))
        if startsWithCI alt r then
          let after := r.drop alt.length
          match after with
          | [] => some (1 + (j + 1) + alt.length)
          | d :: _ => if isWordCh d then none else some (1 + (j + 1) + alt.length)
        else none) alts with
    | some len2 =>
      rw [hp] at h
      dsimp only at h
      have hlen2 : len2 = len := by simpa using h
      obtain ⟨alt, hmem, hf⟩ := pickFirst_eq_some hp
      dsimp only at hf
      by_cases hs : startsWithCI alt (t.drop (1 + (j + 1))) = true
      · rw [if_pos hs] at hf
        refine ⟨j, alt, hmem, ?_, hs⟩
        cases hafter : (t.drop (1 + (j + 1))).drop alt.length with
        | nil =>
          rw [hafter] at hf
          have := Option.some.injEq (1 + (j + 1) + alt.length) len2 ▸ hf
          omega
        | cons d ds =>
          rw [hafter] at hf
          dsimp only at hf
          by_cases hw : isWordCh d = true
          · rw [if_pos hw] at hf; cases hf
          · rw [if_neg hw] at hf
            have : 1 + (j + 1) + alt.length = len2 := by simpa using hf
            omega
      · rw [if_neg hs] at hf; cases hf
    | none =>
      rw [hp] at h
      dsimp only at h
      exact ih len h

theorem suffixPhraseTry_shape {alts : List Text}
    (halts : ∀ alt ∈ alts, alt ≠ [] ∧ lastNotWs alt = true)
    {prev : Option Char} {t cap rest : Text}
    (h : suffixPhraseTry alts prev t = some (cap, rest)) :
    headNotWs cap = true ∧ lastNotWs cap = true := by
  cases t with
  | nil => exact absurd h (by simp [suffixPhraseTry])
  | cons c cs =>
    simp only [suffixPhraseTry] at h
    cases ha : c.isAlpha with
    | false => rw [ha] at h; simp at h
    | true =>
      rw [ha] at h
      simp only [Bool.not_true] at h
      rw [if_neg (by decide : ¬((false : Bool) = true))] at h
      cases hb : atBoundary prev c with
      | false => rw [hb] at h; simp at h
      | true =>
        rw [hb] at h
        simp only [Bool.not_true] at h
        rw [if_neg (by decide : ¬((false : Bool) = true))] at h
        cases he : suffixEndAux (c :: cs) alts (cs.takeWhile suffixBodyCh).length with
        | none => rw [he] at h; cases h
        | some len =>
          rw [he] at h
          dsimp only at h
          simp only [Option.some.injEq, Prod.mk.injEq] at h
          obtain ⟨hcap, -⟩ := h
          obtain ⟨j, alt, hmem, hlen, hsw⟩ := suffixEndAux_spec _ _ he
          obtain ⟨haltne, haltlast⟩ := halts alt hmem
          have hseq := startsWithCI_eq hsw
          have hsegne : ((c :: cs).drop (1 + (j + 1))).take alt.length ≠ [] := by
            intro h0
            rw [h0] at hseq
            simp [lowerText] at hseq
            exact haltne hseq
          have htake : (c :: cs).take len =
              (c :: cs).take (1 + (j + 1)) ++ ((c :: cs).drop (1 + (j + 1))).take alt.length := by
            rw [hlen, List.take_add]
          constructor
          · obtain ⟨n, rfl⟩ : ∃ n, len = n + 1 := ⟨len - 1, by omega⟩
            rw [← hcap]
            simp [List.take_succ_cons, headNotWs, notWs_of_alpha c ha]
          · rw [← hcap, htake, lastNotWs_append _ hsegne]
            cases hgl : (((c :: cs).drop (1 + (j + 1))).take alt.length).getLast? with
            | none => exact absurd (List.getLast?_eq_none_iff.mp hgl) hsegne
            | some x =>
              have hgalt := congrArg List.getLast? hseq
              unfold lowerText at hgalt
              rw [List.getLast?_map, hgl] at hgalt
              have hwsl : isWsCh (Char.toLower x) = false := by
                unfold lastNotWs at haltlast
                rw [← hgalt] at haltlast
                simpa using haltlast
              have hx : isWsCh x = false := by
                cases hxx : isWsCh x with
                | false => rfl
                | true =>
                  rw [wsToLower x hxx] at hwsl
                  rw [hxx] at hwsl
                  cases hwsl
              simp [lastNotWs, hgl, hx]

theorem vendorCandidates_shape (vkws excl : List Text) (text : Text) :
    ∀ cand ∈ collectVendorCandidates vkws excl text,
      headNotWs cand = true ∧ lastNotWs cand = true := by
  intro cand hc
  have hgrabTC : ∀ t w r, grabTCWord t = some (w, r) →
      w ≠ [] ∧ ∀ x ∈ w, isWsCh x = false := fun _ _ _ h => grabTCWord_shape h
  have hgrabCaps : ∀ t w r, grabCapsRun t = some (w, r) →
      w ≠ [] ∧ ∀ x ∈ w, isWsCh x = false := fun _ _ _ h => grabCapsRun_shape h
  simp only [collectVendorCandidates, List.mem_append] at hc
  rcases hc with ((hc | hc) | hc) | hc
  · obtain ⟨kw, hkw, hc⟩ := List.mem_flatMap.mp hc
    obtain ⟨w, hw, hc⟩ := List.mem_flatMap.mp hc
    obtain ⟨p, u, rest, hm⟩ := scanPrev_mem _ _ _ _ hc
    exact phraseTry_shape hgrabTC hm
  · have hc2 := (List.mem_filter.mp (List.mem_filter.mp hc).1).1
    obtain ⟨p, u, rest, hm⟩ := scanPrev_mem _ _ _ _ hc2
    exact phraseTry_shape hgrabTC hm
  · have hc2 := (List.mem_filter.mp hc).1
    obtain ⟨p, u, rest, hm⟩ := scanPrev_mem _ _ _ _ hc2
    exact phraseTry_shape hgrabCaps hm
  · unfold findCompanySuffixes at hc
    rcases List.mem_append.mp hc with hc | hc
    · obtain ⟨p, u, rest, hm⟩ := scanPrev_mem _ _ _ _ hc
      exact suffixPhraseTry_shape (by decide) hm
    · obtain ⟨p, u, rest, hm⟩ := scanPrev_mem _ _ _ _ hc
      exact suffixPhraseTry_shape (by decide) hm

theorem pyStrip_eq_self {w : Text} (h1 : headNotWs w = true) (h2 : lastNotWs w = true) :
    pyStrip w = w := by
  unfold pyStrip
  have hd1 : w.dropWhile isWsCh = w := by
    cases w with
    | nil => rfl
    | cons c cs =>
      have hc : isWsCh c = false := by simpa [headNotWs] using h1
      simp [List.dropWhile, hc]
  rw [hd1]
  have hd2 : w.reverse.dropWhile isWsCh = w.reverse := by
    cases hgl : w.getLast? with
    | none => rw [List.getLast?_eq_none_iff.mp hgl]; rfl
    | some x =>
      have hx : isWsCh x = false := by
        unfold lastNotWs at h2
        rw [hgl] at h2
        simpa using h2
      cases hw : w.reverse with
      | nil => rfl
      | cons y ys =>
        have hhd : w.reverse.head? = some x := by rw [List.head?_reverse]; exact hgl
        rw [hw] at hhd
        have hyx : y = x := by simpa using hhd
        rw [hyx]
        simp [List.dropWhile, hx]
  rw [hd2, List.reverse_reverse]

/-- C6: with a non-empty candidate set, the returned vendor is exactly a
candidate of maximal additive score that is preceded, in the order the
four strategies produce candidates, only by strictly lower scoring
candidates — the first encountered maximum (the `.strip()` the source
applies is a no-op: every strategy produces candidates with non-whitespace
edge characters); an empty candidate set returns the empty string. -/
theorem claim_C6 (text : Text) :
    (collectVendorCandidates vendorKeywords excludeWords text = [] →
      extractVendor text = []) ∧
    (collectVendorCandidates vendorKeywords excludeWords text ≠ [] →
      ∃ best l₁ l₂,
        collectVendorCandidates vendorKeywords excludeWords text = l₁ ++ best :: l₂ ∧
        extractVendor text = best ∧
        (∀ y ∈ collectVendorCandidates vendorKeywords excludeWords text,
          scoreCandidate excludeWords y ≤ scoreCandidate excludeWords best) ∧
        (∀ y ∈ l₁, scoreCandidate excludeWords y < scoreCandidate excludeWords best)) := by
  constructor
  · intro h
    unfold extractVendor extractVendorWith
    rw [if_neg (by simp [h])]
  · intro h
    obtain ⟨l₁, l₂, heq, hstrict, hall⟩ :=
      stableSortByKey_head_first (fun c => -(scoreCandidate excludeWords c)) []
        (collectVendorCandidates vendorKeywords excludeWords text) h
    refine ⟨(stableSortByKey (fun c => -(scoreCandidate excludeWords c))
      (collectVendorCandidates vendorKeywords excludeWords text)).headD [], l₁, l₂, heq, ?_,
      ?_, ?_⟩
    · have hbm : (stableSortByKey (fun c => -(scoreCandidate excludeWords c))
          (collectVendorCandidates vendorKeywords excludeWords text)).headD [] ∈
          collectVendorCandidates vendorKeywords excludeWords text := by
        nth_rewrite 1 [heq]
        exact List.mem_append_right _ (List.mem_cons_self _ _)
      obtain ⟨hh, hl⟩ := vendorCandidates_shape vendorKeywords excludeWords text _ hbm
      have hveq : extractVendor text =
          pyStrip ((stableSortByKey (fun c => -(scoreCandidate excludeWords c))
            (collectVendorCandidates vendorKeywords excludeWords text)).headD []) := by
        unfold extractVendor extractVendorWith selectBestCandidate
        rw [if_pos h]
        cases hC : collectVendorCandidates vendorKeywords excludeWords text with
        | nil => exact absurd hC h
        | cons c cs => rfl
      rw [hveq]
      exact pyStrip_eq_self hh hl
    · intro y hy
      have hk := hall y hy
      omega
    · intro y hy
      have hk := hstrict y hy
      omega

/-- Witness for C6: the characterization at a concrete text with a
non-empty candidate set. -/
theorem claim_C6_witness :
    ∃ best l₁ l₂,
      collectVendorCandidates vendorKeywords excludeWords (tx "Acme Corporation") =
        l₁ ++ best :: l₂ ∧
      extractVendor (tx "Acme Corporation") = best ∧
      (∀ y ∈ collectVendorCandidates vendorKeywords excludeWords (tx "Acme Corporation"),
        scoreCandidate excludeWords y ≤ scoreCandidate excludeWords best) ∧
      (∀ y ∈ l₁, scoreCandidate excludeWords y < scoreCandidate excludeWords best) :=
  (claim_C6 (tx "Acme Corporation")).2 (by decide)

